import Mathlib

/-!
Verification development for the noorm parameter/statement resolution core:
a shallow embedding of `noorm/_sqlite_common.py`, `noorm/_db_api_2.py`,
`noorm/_db_api_2_args_only.py` and the statement-execution skeleton of
`noorm/sqlite3/_sqlite3.py`, together with theorems settling the frozen
claims about them.

Python strings are embedded as `List Char`; Python `dict`s (which preserve
insertion order) as association lists; fallible code returns `Except`/`Option`.
Recursions that are not structural in Python (scanning a string while skipping
several characters at once) are given an explicit fuel argument equal to the
input length, so every definition is executable and kernel-reducible.
-/

namespace Noorm

/-! ### Decimal digit printing and parsing

Models CPython's rendering of nonnegative integers (`str(n)`, `%02d`-style
zero padding) and digit-string parsing, used by `date.isoformat`,
`datetime.isoformat`, `str(Decimal)` and their inverse parsers.
-/

/-- The character for a single decimal digit, as produced by CPython. -/
def digitChar (n : Nat) : Char := Char.ofNat (48 + n)

/-- Numeric value of a decimal digit character. -/
def charVal (c : Char) : Nat := c.toNat - 48

/-- Is `c` an ASCII decimal digit? -/
def isDigitCh (c : Char) : Bool := 48 ≤ c.toNat && c.toNat ≤ 57

/-- Fuel-driven rendering of `n` in decimal, most significant digit first,
prepended to `acc`.  Fuel `n` always suffices. -/
def natToCharsAux : Nat → Nat → List Char → List Char
  | 0, n, acc => digitChar n :: acc
  | fuel + 1, n, acc =>
    if n < 10 then digitChar n :: acc
    else natToCharsAux fuel (n / 10) (digitChar (n % 10) :: acc)

/-- Decimal rendering of a natural number, as CPython's `str` does
(no leading zeros, `"0"` for zero). -/
def natToChars (n : Nat) : List Char := natToCharsAux n n []

/-- Left fold turning a digit string into its value (no validation). -/
def digitsValAux (acc : Nat) (cs : List Char) : Nat :=
  cs.foldl (fun a c => a * 10 + charVal c) acc

/-- Zero-pad the decimal rendering of `n` on the left to width `k`. -/
def padN (k n : Nat) : List Char :=
  List.replicate (k - (natToChars n).length) '0' ++ natToChars n

/-- Parse exactly `k` leading characters as a digit string; return its value
and the rest of the input.  Fails unless `k` digit characters are present. -/
def parseFixed (k : Nat) (cs : List Char) : Option (Nat × List Char) :=
  let pre := cs.take k
  if pre.length = k ∧ pre.all isDigitCh then some (digitsValAux 0 pre, cs.drop k)
  else none

/-! ### Calendar dates, timestamps, fixed-point decimals

Models the CPython library types `datetime.date`, `datetime.datetime` and
`decimal.Decimal` exactly as far as the noorm core consumes them:
`isoformat` / `fromisoformat` (with `' '` as the date/time separator, as
`_encode_val` requests) and `str(Decimal)` / `Decimal(str)`.  A `Decimal`
is a sign, a coefficient and an exponent, `str` follows the to-scientific-string
rules, and parsing follows the decimal-literal grammar.
-/

structure PyDate where
  year : Nat
  month : Nat
  day : Nat
deriving DecidableEq

/-- Models `date.isoformat()`: zero-padded `YYYY-MM-DD`. -/
def dateIso (d : PyDate) : List Char :=
  padN 4 d.year ++ '-' :: (padN 2 d.month ++ '-' :: padN 2 d.day)

/-- Require a specific leading character and consume it. -/
def expectChar (c : Char) : List Char → Option (List Char)
  | [] => none
  | x :: r => if x = c then some r else none

/-- Parse a leading `YYYY-MM-DD` and return the remaining input; field bounds
as `datetime.date` enforces (day bound approximated by 31). -/
def dateFromIsoParts (cs : List Char) : Option (PyDate × List Char) :=
  (parseFixed 4 cs).bind fun yr =>
  (expectChar '-' yr.2).bind fun r2 =>
  (parseFixed 2 r2).bind fun mr =>
  (expectChar '-' mr.2).bind fun r4 =>
  (parseFixed 2 r4).bind fun dr =>
  if 1 ≤ yr.1 ∧ 1 ≤ mr.1 ∧ mr.1 ≤ 12 ∧ 1 ≤ dr.1 ∧ dr.1 ≤ 31 then
    some (⟨yr.1, mr.1, dr.1⟩, dr.2)
  else none

/-- Models `date.fromisoformat`: the whole input must be one `YYYY-MM-DD` date. -/
def dateFromIso (cs : List Char) : Option PyDate :=
  (dateFromIsoParts cs).bind fun p => if p.2 = [] then some p.1 else none

structure PyDatetime where
  year : Nat
  month : Nat
  day : Nat
  hour : Nat
  minute : Nat
  second : Nat
  microsecond : Nat
deriving DecidableEq

/-- Models `datetime.isoformat(sep=" ")`: `YYYY-MM-DD HH:MM:SS`, plus `.ffffff`
only when the microsecond field is nonzero. -/
def dtIso (t : PyDatetime) : List Char :=
  dateIso ⟨t.year, t.month, t.day⟩ ++ ' ' ::
    (padN 2 t.hour ++ ':' :: (padN 2 t.minute ++ ':' :: (padN 2 t.second ++
      (if t.microsecond = 0 then [] else '.' :: padN 6 t.microsecond))))

/-- After `HH:MM:SS`: either end of input, or a fractional-second part. -/
def timeTail3 (h mi s : Nat) : List Char → Option (Nat × Nat × Nat × Nat)
  | [] => some (h, mi, s, 0)
  | c :: r =>
    if c = '.' then
      (parseFixed 6 r).bind fun ur =>
        if ur.2 = [] then some (h, mi, s, ur.1) else none
    else none

/-- After `HH:MM`: either end of input, or a `:SS[.ffffff]` part. -/
def timeTail2 (h mi : Nat) : List Char → Option (Nat × Nat × Nat × Nat)
  | [] => some (h, mi, 0, 0)
  | c :: r =>
    if c = ':' then (parseFixed 2 r).bind fun sr => timeTail3 h mi sr.1 sr.2
    else none

/-- Parse `HH:MM[:SS[.ffffff]]` to (hour, minute, second, microsecond). -/
def timeFromIso (cs : List Char) : Option (Nat × Nat × Nat × Nat) :=
  (parseFixed 2 cs).bind fun hr =>
  (expectChar ':' hr.2).bind fun r1 =>
  (parseFixed 2 r1).bind fun mr => timeTail2 hr.1 mr.1 mr.2

/-- After the date: either end of input (midnight), or one separator
character (any character, as CPython accepts) and a time. -/
def dtTail (d : PyDate) : List Char → Option PyDatetime
  | [] => some ⟨d.year, d.month, d.day, 0, 0, 0, 0⟩
  | _ :: rest =>
    (timeFromIso rest).bind fun q =>
      if q.1 ≤ 23 ∧ q.2.1 ≤ 59 ∧ q.2.2.1 ≤ 59 then
        some ⟨d.year, d.month, d.day, q.1, q.2.1, q.2.2.1, q.2.2.2⟩
      else none

/-- Models `datetime.fromisoformat` for the formats `isoformat` emits. -/
def dtFromIso (cs : List Char) : Option PyDatetime :=
  (dateFromIsoParts cs).bind fun p => dtTail p.1 p.2

structure PyDecimal where
  neg : Bool
  coeff : Nat
  exp : Int
deriving DecidableEq

/-- The adjusted exponent of a decimal: exponent plus coefficient digit count
minus one. -/
def decAdj (x : PyDecimal) : Int := x.exp + (natToChars x.coeff).length - 1

/-- Models `str(Decimal)` without the sign: the to-scientific-string conversion of
the General Decimal Arithmetic specification, as CPython implements it. -/
def decimalBody (x : PyDecimal) : List Char :=
  if x.exp ≤ 0 ∧ -6 ≤ decAdj x then
    if x.exp = 0 then natToChars x.coeff
    else if decAdj x < 0 then
      '0' :: '.' :: (List.replicate (-(decAdj x + 1)).toNat '0' ++ natToChars x.coeff)
    else
      (natToChars x.coeff).take (((natToChars x.coeff).length : Int) + x.exp).toNat ++
        '.' :: (natToChars x.coeff).drop (((natToChars x.coeff).length : Int) + x.exp).toNat
  else
    (if (natToChars x.coeff).length = 1 then natToChars x.coeff
     else (natToChars x.coeff).take 1 ++ '.' :: (natToChars x.coeff).drop 1) ++
      'E' :: (if decAdj x < 0 then '-' :: natToChars (-(decAdj x)).toNat
              else '+' :: natToChars (decAdj x).toNat)

/-- Models `str(Decimal)`: sign, then the body. -/
def decimalStr (x : PyDecimal) : List Char :=
  if x.neg then '-' :: decimalBody x else decimalBody x

/-- Not an exponent marker. -/
def notExpCh (c : Char) : Bool :=
  if c = 'E' then false else if c = 'e' then false else true

/-- Not a decimal point. -/
def notDotCh (c : Char) : Bool := if c = '.' then false else true

/-- Strip an optional leading sign, reporting whether it was `-`. -/
def stripSign (cs : List Char) : Bool × List Char :=
  match cs with
  | [] => (false, [])
  | c :: r => if c = '-' then (true, r) else if c = '+' then (false, r) else (false, c :: r)

/-- Parse the exponent part of a decimal literal: empty, or a marker followed
by an optionally signed nonempty digit string. -/
def decimalParseExp : List Char → Option Int
  | [] => some 0
  | _ :: es =>
    let s := stripSign es
    if s.2 ≠ [] ∧ s.2.all isDigitCh then
      some (if s.1 then -(digitsValAux 0 s.2 : Int) else (digitsValAux 0 s.2 : Int))
    else none

/-- Drop a leading decimal point (the fractional digits of a mantissa). -/
def dropDot : List Char → List Char
  | [] => []
  | _ :: r => r

/-- The integer-part digits of a mantissa. -/
def mantIp (mant : List Char) : List Char := mant.takeWhile notDotCh

/-- The fractional-part digits of a mantissa. -/
def mantFp (mant : List Char) : List Char := dropDot (mant.dropWhile notDotCh)

/-- Parse the mantissa `digits [. digits]` of a decimal literal and assemble
the resulting decimal.  The coefficient keeps no leading zeros (it is a
number), matching CPython's normalization of the coefficient digit tuple. -/
def decimalParseMant (mant : List Char) (exponent : Int) (ng : Bool) : Option PyDecimal :=
  if (mantIp mant).all isDigitCh ∧ (mantFp mant).all isDigitCh ∧
      (mantIp mant ≠ [] ∨ mantFp mant ≠ []) then
    some ⟨ng, digitsValAux 0 (mantIp mant ++ mantFp mant), exponent - (mantFp mant).length⟩
  else none

/-- Models `Decimal(str)`: parse `[sign] digits [. digits] [E [sign] digits]`. -/
def decimalParse (cs : List Char) : Option PyDecimal :=
  (decimalParseExp ((stripSign cs).2.dropWhile notExpCh)).bind fun exponent =>
    decimalParseMant ((stripSign cs).2.takeWhile notExpCh) exponent (stripSign cs).1

/-! ### Round-trip lemmas for the text representations -/

/-! ### Python values, the scalar encoder, and the scalar decoders

`PyVal` embeds the Python values the noorm core handles.  Floats are
embedded by their exact rational value (NaN/Inf out of scope); an object with
a `__conform__` hook and an unencodable object are opaque tokens.  Sets and
tuples passed as parameters behave like lists (`Collection`, not `Mapping`),
so one list constructor covers the non-mapping containers.
-/

inductive PyVal where
  | vBool (b : Bool)
  | vInt (n : Int)
  | vFloat (q : Rat)
  | vStr (s : List Char)
  | vBytes (bs : List Nat)
  | vNone
  | vDate (d : PyDate)
  | vDatetime (t : PyDatetime)
  | vDecimal (x : PyDecimal)
  | vConform (tok : Nat)
  | vList (xs : List PyVal)
  | vObj (tok : Nat)

/-- Models `_encode_val` from `_sqlite_common.py`.  `none` models the `Ellipsis`
marker: the value is not a driver-acceptable primitive.  Branch order of the
source is immaterial here because the constructors are disjoint (`bool` is
tested before `int`, `datetime` before `date`, which the constructors encode).
A value whose type has a `__conform__` hook is passed through unchanged. -/
def encode_val : PyVal → Option PyVal
  | .vBool b => some (.vInt (if b then 1 else 0))
  | .vInt n => some (.vInt n)
  | .vStr s => some (.vStr s)
  | .vNone => some .vNone
  | .vFloat q => some (.vFloat q)
  | .vBytes bs => some (.vBytes bs)
  | .vDatetime t => some (.vStr (dtIso t))
  | .vDate d => some (.vStr (dateIso d))
  | .vDecimal x => some (.vStr (decimalStr x))
  | .vConform tok => some (.vConform tok)
  | .vList _ => none
  | .vObj _ => none

/-- The declared field types `make_scalar_decoder` dispatches on. -/
inductive PyType where
  | tAny
  | tInt
  | tFloat
  | tStr
  | tBool
  | tDecimal
  | tDate
  | tDatetime
  | tOther
deriving DecidableEq

/-- Python `isinstance` for the five `_as_is_val` target types
(`bool` is a subclass of `int`). -/
def isinst (v : PyVal) (t : PyType) : Bool :=
  match v, t with
  | .vBool _, .tBool => true
  | .vBool _, .tInt => true
  | .vInt _, .tInt => true
  | .vFloat _, .tFloat => true
  | .vStr _, .tStr => true
  | .vDecimal _, .tDecimal => true
  | _, _ => false

/-- Python truthiness, as `bool(val)` computes it. -/
def pyTruthy : PyVal → Bool
  | .vBool b => b
  | .vInt n => if n = 0 then false else true
  | .vFloat q => if q = 0 then false else true
  | .vStr s => if s = [] then false else true
  | .vBytes bs => if bs = [] then false else true
  | .vNone => false
  | .vDate _ => true
  | .vDatetime _ => true
  | .vDecimal x => if x.coeff = 0 then false else true
  | .vConform _ => true
  | .vList [] => false
  | .vList (_ :: _) => true
  | .vObj _ => true

/-- Calling the target type's constructor on the value, as `_as_is_val` does
with `type_(val)`.  Models the CPython library constructors on the inputs the
decode paths produce: `bool(val)` is truthiness (total), `Decimal(str)` is the
decimal-literal parser.  Constructor calls no decode path produces (such as
`int` of a textual value) are left unmodelled and fail. -/
def pyConvert : PyType → PyVal → Option PyVal
  | .tBool, v => some (.vBool (pyTruthy v))
  | .tDecimal, .vStr s => (decimalParse s).map .vDecimal
  | _, _ => none

/-- Models `_as_is_val` from `_sqlite_common.py`. -/
def _as_is_val (t : PyType) (v : PyVal) : Option PyVal :=
  match v with
  | .vNone => some .vNone
  | _ => if isinst v t then some v else pyConvert t v

/-- Models `_decode_date` from `_sqlite_common.py`.  `date.fromisoformat` raises on a
non-string argument. -/
def _decode_date : PyVal → Option PyVal
  | .vNone => some .vNone
  | .vDatetime t => some (.vDate ⟨t.year, t.month, t.day⟩)
  | .vDate d => some (.vDate d)
  | .vStr s => (dateFromIso s).map .vDate
  | _ => none

/-- Models `_decode_datetime` from `_sqlite_common.py`: a bare date widens to
midnight of that date. -/
def _decode_datetime : PyVal → Option PyVal
  | .vNone => some .vNone
  | .vDatetime t => some (.vDatetime t)
  | .vDate d => some (.vDatetime ⟨d.year, d.month, d.day, 0, 0, 0, 0⟩)
  | .vStr s => (dtFromIso s).map .vDatetime
  | _ => none

/-- Models `make_scalar_decoder` from `_sqlite_common.py`: the result of its
`issubclass` dispatch for each declared type (for `int`, `float`, `str`,
`bool`, `Decimal` a `partial` application of `_as_is_val`; for `date` and
`datetime` the dedicated decoders; identity otherwise). -/
def make_scalar_decoder : PyType → PyVal → Option PyVal
  | .tAny, v => some v
  | .tInt, v => _as_is_val .tInt v
  | .tFloat, v => _as_is_val .tFloat v
  | .tStr, v => _as_is_val .tStr v
  | .tBool, v => _as_is_val .tBool v
  | .tDecimal, v => _as_is_val .tDecimal v
  | .tDate, v => _decode_date v
  | .tDatetime, v => _decode_datetime v
  | .tOther, v => some v

/-! ### The statement splitter

Models `_SQL_SPLITTER = re.compile(r"'.*?'|\".*?\"|--.*?\n")` under
`finditer`: scan left to right; at each position try, in order, a lazily
closed single-quoted span, a lazily closed double-quoted span, or `--` up to
and including the next newline.  `.` does not match a newline, so a quoted
span never crosses a newline and a comment must be terminated by one;
otherwise the alternative fails at that position and scanning moves one
character to the right.  Text outside matches is code; matches are opaque.
-/

inductive Seg where
  | code (cs : List Char)
  | lit (cs : List Char)
deriving DecidableEq

/-- Content of a segment. -/
def segStr : Seg → List Char
  | .code cs => cs
  | .lit cs => cs

/-- Concatenation of segment contents. -/
def joinSegs : List Seg → List Char
  | [] => []
  | s :: rest => segStr s ++ joinSegs rest

/-- Models `'.*?'` after the opening quote: the shortest extension to a closing
quote `q`, with no newline in between (`.` does not match newline).  Returns
the matched text (closing quote included) and the rest. -/
def closeQuote (q : Char) : List Char → Option (List Char × List Char)
  | [] => none
  | c :: cs =>
    if c = q then some ([c], cs)
    else if c = '\n' then none
    else
      match closeQuote q cs with
      | none => none
      | some (m, r) => some (c :: m, r)

/-- Models `--.*?\n` after the `--`: everything up to and including the next
newline; fails if no newline follows. -/
def closeComment : List Char → Option (List Char × List Char)
  | [] => none
  | c :: cs =>
    if c = '\n' then some ([c], cs)
    else
      match closeComment cs with
      | none => none
      | some (m, r) => some (c :: m, r)

/-- The scan of `finditer`: `acc` holds the pending code characters in
reverse.  Fuel `rest.length` always suffices, since every step consumes at
least one character. -/
def splitSqlAux : Nat → List Char → List Char → List Seg
  | 0, acc, rest =>
    if acc = [] ∧ rest = [] then [] else [.code (acc.reverse ++ rest)]
  | _ + 1, acc, [] => if acc = [] then [] else [.code acc.reverse]
  | fuel + 1, acc, c :: cs =>
    if c = '\'' ∨ c = '"' then
      match closeQuote c cs with
      | some (m, r) =>
        (if acc = [] then [] else [Seg.code acc.reverse]) ++
          Seg.lit (c :: m) :: splitSqlAux fuel [] r
      | none => splitSqlAux fuel (c :: acc) cs
    else if c = '-' then
      match cs with
      | c2 :: cs2 =>
        if c2 = '-' then
          match closeComment cs2 with
          | some (m, r) =>
            (if acc = [] then [] else [Seg.code acc.reverse]) ++
              Seg.lit (c :: c2 :: m) :: splitSqlAux fuel [] r
          | none => splitSqlAux fuel (c :: acc) cs
        else splitSqlAux fuel (c :: acc) cs
      | [] => splitSqlAux fuel (c :: acc) cs
    else splitSqlAux fuel (c :: acc) cs

/-- Partition a statement into code and opaque segments. -/
def splitSql (s : List Char) : List Seg := splitSqlAux s.length [] s

/-! ### The propagation transforms -/

/-- Lead-of test: does `p` start the second list? -/
def leadMatch : List Char → List Char → Bool
  | [], _ => true
  | _ :: _, [] => false
  | p :: ps, c :: cs => if p = c then leadMatch ps cs else false

/-- An identifier-continuation character: `next_char.isalnum() or next_char
== "_"`.  Python's `isalnum` is Unicode-aware; this model restricts it to
the ASCII alphanumerics — the identifier-continuation characters (letter,
digit, underscore) of SQL identifiers — so a statement with a non-ASCII
alphanumeric directly after a placeholder name is outside the model. -/
def isIdentCh (c : Char) : Bool := c.isAlphanum || c == '_'

/-- Does the text start with an identifier-continuation character? -/
def identNext : List Char → Bool
  | [] => false
  | ch :: _ => isIdentCh ch

/-- Models `", ".join(...)`. -/
def commaJoin : List (List Char) → List Char
  | [] => []
  | [x] => x
  | x :: y :: rest => x ++ ',' :: ' ' :: commaJoin (y :: rest)

/-- The synthetic name `:__<cleaned>_<i>`. -/
def synthName (cleaned : List Char) (i : Nat) : List Char :=
  ':' :: '_' :: '_' :: (cleaned ++ '_' :: natToChars i)

/-- The comma-joined run of `size` synthetic names. -/
def synthNames (cleaned : List Char) (size : Nat) : List Char :=
  commaJoin ((List.range size).map (synthName cleaned))

/-- One pass of the loop body of `_propagate_named_params` for a single
name: scan for `pname`; on a match, keep it verbatim when the next character
continues an identifier, otherwise emit the replacement `rep`; either way
resume after the matched text.  Fuel `code.length` suffices because `pname`
is never empty (it starts with `:`). -/
def propNamedOneAux (pname rep : List Char) : Nat → List Char → List Char
  | _, [] => []
  | 0, code => code
  | fuel + 1, c :: cs =>
    if leadMatch pname (c :: cs) then
      (if identNext ((c :: cs).drop pname.length) then pname else rep) ++
        propNamedOneAux pname rep fuel ((c :: cs).drop pname.length)
    else c :: propNamedOneAux pname rep fuel cs

/-- Replace the exact-token occurrences of one name. -/
def propNamedOne (pname rep code : List Char) : List Char :=
  propNamedOneAux pname rep code.length code

/-- Models `_propagate_named_params` from `_sqlite_common.py`: fold the per-name
replacement over the size table, in insertion order; keys carry the
leading colon and `cleaned_pname` drops it. -/
def _propagate_named_params (sizes : List (List Char × Nat)) (code : List Char) :
    List Char :=
  sizes.foldl (fun cd pk => propNamedOne pk.1 (synthNames (pk.1.drop 1) pk.2) cd) code

/-- Membership of the positional size table (`dict[int, int]`). -/
def lookupPos (sizes : List (Nat × Nat)) (i : Nat) : Option Nat :=
  (sizes.find? (fun kv => kv.1 == i)).map (fun kv => kv.2)

/-- Models `", ".join("?" for _ in range(k))`. -/
def qmarks (k : Nat) : List Char := commaJoin (List.replicate k ['?'])

/-- Models `_propagate_positional_params` from `_sqlite_common.py`: walk the code
span; each `?` at running index `idx` becomes `k` comma-joined `?` when the
size table maps `idx` to `k`, or stays a single `?`; the index advances at
every `?` regardless.  Returns the rewritten span and the final index
(the `next_idx_var` cell). -/
def _propagate_positional_params (sizes : List (Nat × Nat)) :
    Nat → List Char → List Char × Nat
  | idx, [] => ([], idx)
  | idx, c :: cs =>
    if c = '?' then
      let rep := match lookupPos sizes idx with
        | some k => qmarks k
        | none => ['?']
      let r := _propagate_positional_params sizes (idx + 1) cs
      (rep ++ r.1, r.2)
    else
      let r := _propagate_positional_params sizes idx cs
      (c :: r.1, r.2)

/-- Models `_adjust_sql` for a stateless propagation function: code spans are
rewritten, opaque spans pass through verbatim. -/
def adjustSegs (propagate : List Char → List Char) : List Seg → List Char
  | [] => []
  | .code cs :: rest => propagate cs ++ adjustSegs propagate rest
  | .lit cs :: rest => cs ++ adjustSegs propagate rest

/-- Models `_adjust_sql(sql, partial(_propagate_named_params, sizes))`. -/
def adjustNamed (sizes : List (List Char × Nat)) (sql : List Char) : List Char :=
  adjustSegs (_propagate_named_params sizes) (splitSql sql)

/-- Models `_adjust_sql` with the stateful positional propagation: the running
placeholder index threads through the code spans only. -/
def adjustSegsPos (sizes : List (Nat × Nat)) : Nat → List Seg → List Char × Nat
  | idx, [] => ([], idx)
  | idx, .code cs :: rest =>
    let r1 := _propagate_positional_params sizes idx cs
    let r2 := adjustSegsPos sizes r1.2 rest
    (r1.1 ++ r2.1, r2.2)
  | idx, .lit cs :: rest =>
    let r2 := adjustSegsPos sizes idx rest
    (cs ++ r2.1, r2.2)

/-- Models `_adjust_sql(sql, partial(_propagate_positional_params, sizes, [0]))`. -/
def adjustPositional (sizes : List (Nat × Nat)) (sql : List Char) : List Char :=
  (adjustSegsPos sizes 0 (splitSql sql)).1

/-! ### Parameter preparation (`_prepare_named_params`,
`_prepare_positional_params`) -/

inductive PyErr where
  | valueError (msg : String)
  | typeError (msg : String)
  | runtimeError (msg : String)
deriving DecidableEq

/-- Models `type(val).__name__` for the embedded values. -/
def pyTypeName : PyVal → String
  | .vBool _ => "bool"
  | .vInt _ => "int"
  | .vFloat _ => "float"
  | .vStr _ => "str"
  | .vBytes _ => "bytes"
  | .vNone => "NoneType"
  | .vDate _ => "date"
  | .vDatetime _ => "datetime"
  | .vDecimal _ => "Decimal"
  | .vConform _ => "Conformable"
  | .vList _ => "list"
  | .vObj _ => "object"

def wrongElemMsg (pname : List Char) (idx : Nat) (v : PyVal) : String :=
  "Wrong type of parameter " ++ String.mk pname ++ "[" ++
    String.mk (natToChars idx) ++ "]: " ++ pyTypeName v

def wrongParamMsg (pname : List Char) (v : PyVal) : String :=
  "Wrong type of parameter " ++ String.mk pname ++ ": " ++ pyTypeName v

/-- Models a Python `dict` write `m[k] = v` on an insertion-ordered mapping:
overwrite in place when the key is present (the key keeps its original
position), append at the end otherwise. -/
def dictWrite {κ α : Type} [DecidableEq κ] :
    List (κ × α) → κ → α → List (κ × α)
  | [], k, v => [(k, v)]
  | (k0, v0) :: rest, k, v =>
    if k0 = k then (k0, v) :: rest else (k0, v0) :: dictWrite rest k v

/-- The synthetic mapping key `__<pname>_<i>` of `f"__{pname}_{idx}"`; the
statement-side placeholder `synthName` is this key with a leading colon. -/
def synthKey (pname : List Char) (i : Nat) : List Char :=
  '_' :: '_' :: (pname ++ '_' :: natToChars i)

/-- Encode the elements of a named container parameter into the accumulated
`res_params` mapping under the synthetic keys `__<pname>_<idx>` (dict
writes, so a colliding key written earlier is overwritten in place, as in
the source); an unencodable element is a type error naming the parameter
and index. -/
def encodeNamedElemsInto (pname : List Char) : Nat → List PyVal →
    List (List Char × PyVal) → Except PyErr (List (List Char × PyVal))
  | _, [], acc => .ok acc
  | idx, v :: vs, acc =>
    match encode_val v with
    | none => .error (.typeError (wrongElemMsg pname idx v))
    | some ev =>
      encodeNamedElemsInto pname (idx + 1) vs (dictWrite acc (synthKey pname idx) ev)

/-- The container branch of the parameter loop of `_prepare_named_params`:
a value `_encode_val` rejected is either a non-mapping `Collection` — whose
size is recorded and whose elements are written into the mapping under the
synthetic keys — or a type error. -/
def encodeNamedExpandInto (pname : List Char) (v : PyVal)
    (acc : List (List Char × PyVal)) (sz : List (List Char × Nat)) :
    Except PyErr (List (List Char × PyVal) × List (List Char × Nat)) :=
  match v with
  | .vList xs =>
    (match encodeNamedElemsInto pname 0 xs acc with
     | .error err => .error err
     | .ok acc2 => .ok (acc2, dictWrite sz (':' :: pname) xs.length))
  | _ => .error (.typeError (wrongParamMsg pname v))

/-- The parameter loop of `_prepare_named_params`: thread the rewritten
mapping `res_params` and the size table through the parameters in order,
both with Python dict write semantics. -/
def encodeNamedAux : List (List Char × PyVal) → List (List Char × PyVal) →
    List (List Char × Nat) →
    Except PyErr (List (List Char × PyVal) × List (List Char × Nat))
  | [], acc, sz => .ok (acc, sz)
  | (pname, v) :: ps, acc, sz =>
    match encode_val v with
    | some ev => encodeNamedAux ps (dictWrite acc pname ev) sz
    | none =>
      match encodeNamedExpandInto pname v acc sz with
      | .error err => .error err
      | .ok (acc2, sz2) => encodeNamedAux ps acc2 sz2

/-- The parameter loop of `_prepare_named_params`, started on the empty
mapping and size table. -/
def encodeNamed (params : List (List Char × PyVal)) :
    Except PyErr (List (List Char × PyVal) × List (List Char × Nat)) :=
  encodeNamedAux params [] []

/-- Models `_prepare_named_params` from `_sqlite_common.py`. -/
def _prepare_named_params (sql : List Char) (params : List (List Char × PyVal)) :
    Except PyErr (List Char × List (List Char × PyVal)) :=
  match encodeNamed params with
  | .error err => .error err
  | .ok (rp, sizes) => .ok (if sizes = [] then sql else adjustNamed sizes sql, rp)

def wrongElemMsgPos (pidx idx : Nat) (v : PyVal) : String :=
  "Wrong type of parameter " ++ String.mk (natToChars pidx) ++ "[" ++
    String.mk (natToChars idx) ++ "]: " ++ pyTypeName v

def wrongParamMsgPos (pidx : Nat) (v : PyVal) : String :=
  "Wrong type of parameter " ++ String.mk (natToChars pidx) ++ ": " ++ pyTypeName v

/-- Encode the elements of a positional container parameter, flattened in
place. -/
def encodePosElems (pidx : Nat) : Nat → List PyVal → Except PyErr (List PyVal)
  | _, [] => .ok []
  | idx, v :: vs =>
    match encode_val v with
    | none => .error (.typeError (wrongElemMsgPos pidx idx v))
    | some ev =>
      match encodePosElems pidx (idx + 1) vs with
      | .error err => .error err
      | .ok rest => .ok (ev :: rest)

/-- The container branch of the parameter loop of
`_prepare_positional_params`; `rest` is the outcome for the remaining
parameters. -/
def encodePosExpand (pidx : Nat) (v : PyVal)
    (rest : Except PyErr (List PyVal × List (Nat × Nat))) :
    Except PyErr (List PyVal × List (Nat × Nat)) :=
  match v with
  | .vList xs =>
    (match encodePosElems pidx 0 xs with
     | .error err => .error err
     | .ok elems =>
       match rest with
       | .error err => .error err
       | .ok (rp, sz) => .ok (elems ++ rp, (pidx, xs.length) :: sz))
  | _ => .error (.typeError (wrongParamMsgPos pidx v))

/-- The parameter loop of `_prepare_positional_params`. -/
def encodePositional : Nat → List PyVal →
    Except PyErr (List PyVal × List (Nat × Nat))
  | _, [] => .ok ([], [])
  | pidx, v :: vs =>
    match encode_val v with
    | some ev =>
      match encodePositional (pidx + 1) vs with
      | .error err => .error err
      | .ok (rp, sz) => .ok (ev :: rp, sz)
    | none => encodePosExpand pidx v (encodePositional (pidx + 1) vs)

/-- Models `_prepare_positional_params` from `_sqlite_common.py`. -/
def _prepare_positional_params (sql : List Char) (params : List PyVal) :
    Except PyErr (List Char × List PyVal) :=
  match encodePositional 0 params with
  | .error err => .error err
  | .ok (rp, sizes) => .ok (if sizes = [] then sql else adjustPositional sizes sql, rp)

/-! ### The call-result protocol and statement resolution (`_db_api_2.py`,
`_db_api_2_args_only.py`, and the execution skeleton of
`sqlite3/_sqlite3.py`) -/

/-- A parameter container: a positional tuple or a name-keyed mapping. -/
inductive ParamsContainer where
  | positional (ps : List PyVal)
  | named (ps : List (List Char × PyVal))

/-- What the query function returned: a `PrepareFuncResult`, one of the two
auto sentinels, or a value outside the protocol (carrying its type name). -/
inductive FuncRet where
  | prepared (sql : Option (List Char)) (ps : Option ParamsContainer)
  | autoPositional
  | autoNamed
  | other (tname : String)

/-- How the query function's invocation ended: it raised
`CancelExecException`, raised some other exception, or returned. -/
inductive FuncOutcome where
  | cancel
  | raised (err : PyErr)
  | returns (r : Option FuncRet)

/-- Models `_bake_params` from `_db_api_2.py`: positional and keyword arguments are
mutually exclusive. -/
def _bake_params (args : List PyVal) (kwargs : List (List Char × PyVal)) :
    Except PyErr (Option ParamsContainer) :=
  match args, kwargs with
  | _ :: _, _ :: _ =>
    .error (.valueError "Only positional OR keyword arguments are allowed here, not both")
  | [], _ :: _ => .ok (some (.named kwargs))
  | _ :: _, [] => .ok (some (.positional args))
  | [], [] => .ok none

/-- Models `params(*args, **kwargs)` from `_db_api_2.py`: builds
`PrepareFuncResult(None, _bake_params(args, kwargs))`; the bake error, if
any, is raised during this construction. -/
def params_call (args : List PyVal) (kwargs : List (List Char × PyVal)) :
    Except PyErr FuncRet :=
  match _bake_params args kwargs with
  | .error err => .error err
  | .ok p => .ok (.prepared none p)

/-- The outcome of a query function whose body evaluates `r` and returns it:
an exception raised inside the body propagates. -/
def outcomeOfCall (r : Except PyErr FuncRet) : FuncOutcome :=
  match r with
  | .error err => .raised err
  | .ok v => .returns (some v)

def badReturnMsg (funcName tname : String) : String :=
  "Function " ++ funcName ++ " returned " ++ tname ++
    " (expected None or result of 'params', 'query_and_params', or 'query_only' functions)"

def noSqlMsg (funcName : String) : String :=
  "Function " ++ funcName ++ " did not return an SQL statement in its result. " ++
    "When SQL statement is not provided in decorator params, it should be returned " ++
    "by the function through the 'query_only' or 'query_and_params' function."

def namedUnsupportedMsg (funcName : String) : String :=
  "Function " ++ funcName ++ " returned PARAMS_APPLY_NAMED that is not supported " ++
    "by the DB driver"

/-- Models `req_sql_n_params` from `_db_api_2.py`.  `argsTuple`/`argsDict` stand for
`args_as_tuple`/`args_as_dict` of the call arguments.  A cancel signal skips
execution (`ok none`); any other exception from the query function
propagates; a statement that is still `None` after the fallback is the
configuration error. -/
def req_sql_n_params (funcName : String) (argsTuple : List PyVal)
    (argsDict : List (List Char × PyVal)) (outcome : FuncOutcome)
    (default_sql : Option (List Char)) :
    Except PyErr (Option (List Char × ParamsContainer)) :=
  match outcome with
  | .cancel => .ok none
  | .raised err => .error err
  | .returns r =>
    match
      (match r with
       | none => .ok (default_sql, ParamsContainer.positional [])
       | some .autoPositional => .ok (default_sql, ParamsContainer.positional argsTuple)
       | some .autoNamed => .ok (default_sql, ParamsContainer.named argsDict)
       | some (.prepared s p) =>
         .ok ((match s with | none => default_sql | some s0 => some s0),
              p.getD (ParamsContainer.positional []))
       | some (.other tname) =>
         .error (.typeError (badReturnMsg funcName tname)) :
       Except PyErr (Option (List Char) × ParamsContainer))
    with
    | .error err => .error err
    | .ok (none, _) => .error (.runtimeError (noSqlMsg funcName))
    | .ok (some sql, ps) => .ok (some (sql, ps))

/-- Models `req_sql_n_params` from `_db_api_2_args_only.py`: identical but the
named-auto sentinel is rejected with a value error (the driver has no named
placeholder form). -/
def req_sql_n_params_args_only (funcName : String) (argsTuple : List PyVal)
    (outcome : FuncOutcome) (default_sql : Option (List Char)) :
    Except PyErr (Option (List Char × ParamsContainer)) :=
  match outcome with
  | .cancel => .ok none
  | .raised err => .error err
  | .returns r =>
    match
      (match r with
       | none => .ok (default_sql, ParamsContainer.positional [])
       | some .autoPositional => .ok (default_sql, ParamsContainer.positional argsTuple)
       | some .autoNamed => .error (.valueError (namedUnsupportedMsg funcName))
       | some (.prepared s p) =>
         .ok ((match s with | none => default_sql | some s0 => some s0),
              p.getD (ParamsContainer.positional []))
       | some (.other tname) =>
         .error (.typeError (badReturnMsg funcName tname)) :
       Except PyErr (Option (List Char) × ParamsContainer))
    with
    | .error err => .error err
    | .ok (none, _) => .error (.runtimeError (noSqlMsg funcName))
    | .ok (some sql, ps) => .ok (some (sql, ps))

/-- Models `sqlite_sql_n_params` from `_sqlite_common.py`: resolve, then prepare in
the style of the resolved container. -/
def sqlite_sql_n_params (funcName : String) (argsTuple : List PyVal)
    (argsDict : List (List Char × PyVal)) (outcome : FuncOutcome)
    (default_sql : Option (List Char)) :
    Except PyErr (Option (List Char × ParamsContainer)) :=
  match req_sql_n_params funcName argsTuple argsDict outcome default_sql with
  | .error err => .error err
  | .ok none => .ok none
  | .ok (some (sql, .named ps)) =>
    match _prepare_named_params sql ps with
    | .error err => .error err
    | .ok (sql2, ps2) => .ok (some (sql2, .named ps2))
  | .ok (some (sql, .positional ps)) =>
    match _prepare_positional_params sql ps with
    | .error err => .error err
    | .ok (sql2, ps2) => .ok (some (sql2, .positional ps2))

/-- The execution skeleton of `sql_fetch_all` from `sqlite3/_sqlite3.py`:
resolve and prepare; on skip return the empty list without touching the
driver; otherwise execute once and decode each row.  The second component is
the log of driver `execute` calls. -/
def sql_fetch_all_run {R A : Type} (funcName : String) (argsTuple : List PyVal)
    (argsDict : List (List Char × PyVal)) (outcome : FuncOutcome)
    (default_sql : Option (List Char))
    (execute : List Char → ParamsContainer → List R) (decodeRow : R → A) :
    Except PyErr (List A) × List (List Char × ParamsContainer) :=
  match sqlite_sql_n_params funcName argsTuple argsDict outcome default_sql with
  | .error err => (.error err, [])
  | .ok none => (.ok [], [])
  | .ok (some (sql, ps)) => (.ok ((execute sql ps).map decodeRow), [(sql, ps)])

/-! ### Claim-support definitions

The definitions below restate, in the spec's words, the shapes the claims
talk about: the expected rewritten parameter mapping, exact-token occurrence
counts, the well-formedness of an opaque span, and "the resolved statement is
absent".  They are compared against the embedded source functions by the
theorems.
-/

/-- The synthetic-key writes the spec prescribes for one expanded container
parameter: the K keys `__<name>_<i>` holding the encoded elements, written
into the mapping in element order. -/
def specNamedExpandWrite (m : List (List Char × PyVal)) (n : List Char) :
    PyVal → List (List Char × PyVal)
  | .vList xs =>
    (List.enumFrom 0 xs).foldl
      (fun m2 p => dictWrite m2 (synthKey n p.1) ((encode_val p.2).getD .vNone)) m
  | _ => m

/-- The write the spec prescribes for one named parameter: a non-expanded
name is written directly with its encoded value; a name bound to a
container of length K writes the K synthetic keys `__<name>_<i>` holding
the encoded elements. -/
def specNamedWriteOne (m : List (List Char × PyVal)) (n : List Char)
    (v : PyVal) : List (List Char × PyVal) :=
  match encode_val v with
  | some ev => dictWrite m n ev
  | none => specNamedExpandWrite m n v

/-- The spec's write sequence applied to a mapping, parameter by parameter
in order. -/
def specNamedParamsAux : List (List Char × PyVal) → List (List Char × PyVal) →
    List (List Char × PyVal)
  | [], m => m
  | (n, v) :: ps, m => specNamedParamsAux ps (specNamedWriteOne m n v)

/-- The parameter mapping the spec prescribes: the spec's writes applied to
the empty mapping. -/
def specNamedParams (params : List (List Char × PyVal)) :
    List (List Char × PyVal) :=
  specNamedParamsAux params []

/-- The flat entry list for one expanded container parameter: the K
synthetic keys with the encoded elements, in element order. -/
def specNamedFlatExpand (n : List Char) : PyVal → List (List Char × PyVal)
  | .vList xs =>
    (List.enumFrom 0 xs).map
      (fun p => (synthKey n p.1, (encode_val p.2).getD .vNone))
  | _ => []

/-- The flat entries one named parameter contributes: one entry per scalar,
K entries per container of length K. -/
def specNamedFlatOne (n : List Char) (v : PyVal) : List (List Char × PyVal) :=
  match encode_val v with
  | some ev => [(n, ev)]
  | none => specNamedFlatExpand n v

/-- The flat entry list over all parameters; the written mapping coincides
with it exactly when the written keys are pairwise distinct. -/
def specNamedFlat : List (List Char × PyVal) → List (List Char × PyVal)
  | [] => []
  | (n, v) :: ps => specNamedFlatOne n v ++ specNamedFlat ps

/-- The keys one expanded container parameter writes. -/
def specNamedKeysExpand (n : List Char) : PyVal → List (List Char)
  | .vList xs => (List.enumFrom 0 xs).map (fun p => synthKey n p.1)
  | _ => []

/-- The key (or keys) one named parameter writes. -/
def specNamedKeysOne (n : List Char) (v : PyVal) : List (List Char) :=
  match encode_val v with
  | some _ => [n]
  | none => specNamedKeysExpand n v

/-- The sequence of mapping keys the rewrite writes, in write order; the
rewritten mapping keeps one slot per write exactly when these keys are
pairwise distinct, i.e. when no parameter is named like a synthetic
`__<name>_<i>` key of an expanded container. -/
def specNamedKeys : List (List Char × PyVal) → List (List Char)
  | [] => []
  | (n, v) :: ps => specNamedKeysOne n v ++ specNamedKeys ps

/-- The slot count an unencodable value contributes: the length of the
container. -/
def namedWeightExpand : PyVal → Nat
  | .vList xs => xs.length
  | _ => 0

/-- How many rewritten parameter slots one named parameter contributes:
one for an encodable scalar, K for a container of length K. -/
def namedWeight (pv : List Char × PyVal) : Nat :=
  match encode_val pv.2 with
  | some _ => 1
  | none => namedWeightExpand pv.2

/-- The encoded elements one expanded positional container contributes. -/
def specPosExpand : PyVal → List PyVal
  | .vList xs => xs.map (fun x => (encode_val x).getD .vNone)
  | _ => []

/-- The flat encoded values one positional parameter contributes: the
encoded scalar, or the container's encoded elements in order. -/
def specPosOne (v : PyVal) : List PyVal :=
  match encode_val v with
  | some ev => [ev]
  | none => specPosExpand v

/-- The flattened positional parameter sequence the spec prescribes: each
scalar in place, each container of length K replaced in place by its K
encoded elements. -/
def specPosParams : List PyVal → List PyVal
  | [] => []
  | v :: vs => specPosOne v ++ specPosParams vs

/-- How many rewritten positional slots one parameter contributes: one for
an encodable scalar, K for a container of length K. -/
def posWeight (v : PyVal) : Nat :=
  match encode_val v with
  | some _ => 1
  | none => namedWeightExpand v

/-- Count of exact-token occurrences of `pname` (occurrences not followed by
an identifier-continuation character), scanning exactly as
`propNamedOneAux` does. -/
def countTokAux (pname : List Char) : Nat → List Char → Nat
  | _, [] => 0
  | 0, _ => 0
  | fuel + 1, c :: cs =>
    if leadMatch pname (c :: cs) then
      (if identNext ((c :: cs).drop pname.length) then 0 else 1) +
        countTokAux pname fuel ((c :: cs).drop pname.length)
    else countTokAux pname fuel cs

/-- Count of exact-token occurrences of `pname` in `code`. -/
def countTok (pname code : List Char) : Nat := countTokAux pname code.length code

/-- Does `p` occur (as a contiguous substring) anywhere in the text? -/
def occursIn (p : List Char) : List Char → Bool
  | [] => leadMatch p []
  | c :: cs => leadMatch p (c :: cs) || occursIn p cs

/-- Well-formedness of an opaque span: a single-quoted or double-quoted span
whose closing quote arrives before any newline, or a line comment `--…`
terminated by a newline. -/
def litOkB (cs : List Char) : Bool :=
  match cs with
  | [] => false
  | c :: rest =>
    if c = '\'' ∨ c = '"' then
      (rest.getLast? == some c) &&
        rest.dropLast.all (fun ch => !(ch == c) && !(ch == '\n'))
    else if c = '-' then
      match rest with
      | c2 :: rest2 =>
        (c2 == '-') && (rest2.getLast? == some '\n') &&
          rest2.dropLast.all (fun ch => !(ch == '\n'))
      | [] => false
    else false

/-- The spec's "resolved statement is absent (None)" for `_db_api_2.py`:
the statement after the prepared/default fallback is `None`.  A cancel, a
propagating exception, and a non-protocol return value never reach the
statement check. -/
def resolvedSqlAbsent : FuncOutcome → Option (List Char) → Bool
  | .cancel, _ => false
  | .raised _, _ => false
  | .returns none, d => d.isNone
  | .returns (some (.prepared s _)), d =>
    (match s with | none => d | some s0 => some s0).isNone
  | .returns (some .autoPositional), d => d.isNone
  | .returns (some .autoNamed), d => d.isNone
  | .returns (some (.other _)), _ => false

/-- Same for `_db_api_2_args_only.py`, where the named-auto sentinel fails
with a value error before the statement check. -/
def resolvedSqlAbsentArgsOnly : FuncOutcome → Option (List Char) → Bool
  | .cancel, _ => false
  | .raised _, _ => false
  | .returns none, d => d.isNone
  | .returns (some (.prepared s _)), d =>
    (match s with | none => d | some s0 => some s0).isNone
  | .returns (some .autoPositional), d => d.isNone
  | .returns (some .autoNamed), _ => false
  | .returns (some (.other _)), _ => false

/-! ### Theorems -/

theorem digitsValAux_append (xs ys : List Char) (a : Nat) :
    digitsValAux a (xs ++ ys) = digitsValAux (digitsValAux a xs) ys := by
  simp [digitsValAux, List.foldl_append]

theorem digitsValAux_singleton (a : Nat) (c : Char) :
    digitsValAux a [c] = a * 10 + charVal c := rfl

theorem charVal_digitChar {d : Nat} (h : d < 10) : charVal (digitChar d) = d := by
  interval_cases d <;> decide

theorem isDigitCh_digitChar {d : Nat} (h : d < 10) : isDigitCh (digitChar d) = true := by
  interval_cases d <;> decide

theorem natToCharsAux_acc (fuel n : Nat) (acc : List Char) :
    natToCharsAux fuel n acc = natToCharsAux fuel n [] ++ acc := by
  induction fuel generalizing n acc with
  | zero => rfl
  | succ f ih =>
    by_cases h : n < 10
    · simp [natToCharsAux, h]
    · simp only [natToCharsAux, if_neg h]
      rw [ih (n / 10) (digitChar (n % 10) :: acc), ih (n / 10) [digitChar (n % 10)]]
      simp

theorem digitsValAux_natToCharsAux {fuel n : Nat} (h : n ≤ fuel) (a : Nat) :
    digitsValAux a (natToCharsAux fuel n []) =
      a * 10 ^ (natToCharsAux fuel n []).length + n := by
  induction fuel generalizing n a with
  | zero =>
    have hn : n = 0 := Nat.le_zero.mp h
    subst hn
    simp [natToCharsAux, digitsValAux, charVal, digitChar]
  | succ f ih =>
    by_cases hlt : n < 10
    · simp [natToCharsAux, hlt, digitsValAux, charVal_digitChar hlt]
    · have hdiv : n / 10 ≤ f := by
        have h1 : n / 10 < n := Nat.div_lt_self (by omega) (by omega)
        omega
      simp only [natToCharsAux, if_neg hlt]
      rw [natToCharsAux_acc f (n / 10) [digitChar (n % 10)]]
      rw [digitsValAux_append, ih hdiv a]
      have hmod : n % 10 < 10 := Nat.mod_lt _ (by omega)
      rw [digitsValAux_singleton, charVal_digitChar hmod]
      simp only [List.length_append, List.length_singleton]
      rw [pow_succ]
      have := Nat.div_add_mod n 10
      ring_nf
      omega

theorem digitsVal_natToChars (n : Nat) : digitsValAux 0 (natToChars n) = n := by
  have := digitsValAux_natToCharsAux (Nat.le_refl n) 0
  simpa [natToChars] using this

theorem natToCharsAux_all_digits {fuel n : Nat} (h : n ≤ fuel) :
    (natToCharsAux fuel n []).all isDigitCh = true := by
  induction fuel generalizing n with
  | zero =>
    have hn : n = 0 := Nat.le_zero.mp h
    subst hn
    simp [natToCharsAux, isDigitCh_digitChar (by omega : (0:Nat) < 10)]
  | succ f ih =>
    by_cases hlt : n < 10
    · simp [natToCharsAux, hlt, isDigitCh_digitChar hlt]
    · have hdiv : n / 10 ≤ f := by
        have h1 : n / 10 < n := Nat.div_lt_self (by omega) (by omega)
        omega
      have hmod : n % 10 < 10 := Nat.mod_lt _ (by omega)
      simp only [natToCharsAux, if_neg hlt]
      rw [natToCharsAux_acc f (n / 10) [digitChar (n % 10)]]
      simp only [List.all_append, ih hdiv, List.all_cons, List.all_nil,
        isDigitCh_digitChar hmod, Bool.and_self]

theorem natToChars_all_digits (n : Nat) : (natToChars n).all isDigitCh = true :=
  natToCharsAux_all_digits (Nat.le_refl n)

theorem natToCharsAux_length_le {fuel n k : Nat} (hf : n ≤ fuel) (hk : 1 ≤ k)
    (h : n < 10 ^ k) : (natToCharsAux fuel n []).length ≤ k := by
  induction fuel generalizing n k with
  | zero =>
    have hn : n = 0 := Nat.le_zero.mp hf
    subst hn
    simpa [natToCharsAux] using hk
  | succ f ih =>
    by_cases hlt : n < 10
    · simpa [natToCharsAux, hlt] using hk
    · have hdiv : n / 10 ≤ f := by
        have h1 : n / 10 < n := Nat.div_lt_self (by omega) (by omega)
        omega
      have hk2 : 2 ≤ k := by
        by_contra hc
        have : k = 1 := by omega
        subst this
        simp at h
        omega
      have hdivk : n / 10 < 10 ^ (k - 1) := by
        have : n < 10 ^ (k - 1) * 10 := by
          have : 10 ^ k = 10 ^ (k - 1) * 10 := by
            conv_lhs => rw [show k = (k - 1) + 1 by omega]
            rw [pow_succ]
          omega
        omega
      have := ih hdiv (by omega : 1 ≤ k - 1) hdivk
      simp only [natToCharsAux, if_neg hlt]
      rw [natToCharsAux_acc f (n / 10) [digitChar (n % 10)]]
      simp only [List.length_append, List.length_singleton]
      omega

theorem natToChars_length_le {n k : Nat} (hk : 1 ≤ k) (h : n < 10 ^ k) :
    (natToChars n).length ≤ k :=
  natToCharsAux_length_le (Nat.le_refl n) hk h

theorem padN_length {k n : Nat} (hk : 1 ≤ k) (h : n < 10 ^ k) :
    (padN k n).length = k := by
  have := natToChars_length_le hk h
  simp only [padN, List.length_append, List.length_replicate]
  omega

theorem digitsValAux_replicate_zero (k : Nat) :
    digitsValAux 0 (List.replicate k '0') = 0 := by
  induction k with
  | zero => rfl
  | succ m ih => simpa [List.replicate, digitsValAux, charVal] using ih

theorem padN_all_digits (k n : Nat) : (padN k n).all isDigitCh = true := by
  simp only [padN, List.all_append, natToChars_all_digits, Bool.and_true]
  have : isDigitCh '0' = true := by rfl
  simp [List.all_eq_true, this]

theorem digitsVal_padN (k n : Nat) : digitsValAux 0 (padN k n) = n := by
  simp only [padN]
  rw [digitsValAux_append, digitsValAux_replicate_zero, digitsVal_natToChars]

theorem parseFixed_padN {k n : Nat} (hk : 1 ≤ k) (h : n < 10 ^ k)
    (rest : List Char) : parseFixed k (padN k n ++ rest) = some (n, rest) := by
  have hlen : (padN k n).length = k := padN_length hk h
  simp only [parseFixed]
  rw [List.take_left' hlen, List.drop_left' hlen]
  simp [hlen, padN_all_digits k n, digitsVal_padN]

theorem natToChars_length_pos (n : Nat) : 1 ≤ (natToChars n).length := by
  unfold natToChars
  cases n with
  | zero => simp [natToCharsAux]
  | succ m =>
    by_cases h : m + 1 < 10
    · simp [natToCharsAux, h]
    · simp only [natToCharsAux, if_neg h]
      rw [natToCharsAux_acc]
      simp

theorem takeWhile_eq_self {p : Char → Bool} {xs : List Char}
    (h : ∀ c ∈ xs, p c = true) : xs.takeWhile p = xs := by
  induction xs with
  | nil => rfl
  | cons c cs ih =>
    have hc := h c (by simp)
    have ht := ih fun d hd => h d (by simp [hd])
    simp [List.takeWhile_cons, hc, ht]

theorem dropWhile_eq_nil {p : Char → Bool} {xs : List Char}
    (h : ∀ c ∈ xs, p c = true) : xs.dropWhile p = [] := by
  induction xs with
  | nil => rfl
  | cons c cs ih =>
    have hc := h c (by simp)
    have ht := ih fun d hd => h d (by simp [hd])
    simp [List.dropWhile_cons, hc, ht]

theorem takeWhile_append_stop {p : Char → Bool} {xs : List Char} {y : Char}
    (ys : List Char) (h : ∀ c ∈ xs, p c = true) (hy : p y = false) :
    (xs ++ y :: ys).takeWhile p = xs := by
  induction xs with
  | nil => simp [List.takeWhile_cons, hy]
  | cons c cs ih =>
    have hc := h c (by simp)
    have ht := ih fun d hd => h d (by simp [hd])
    simp [List.cons_append, List.takeWhile_cons, hc, ht]

theorem dropWhile_append_stop {p : Char → Bool} {xs : List Char} {y : Char}
    (ys : List Char) (h : ∀ c ∈ xs, p c = true) (hy : p y = false) :
    (xs ++ y :: ys).dropWhile p = y :: ys := by
  induction xs with
  | nil => simp [List.dropWhile_cons, hy]
  | cons c cs ih =>
    have hc := h c (by simp)
    have ht := ih fun d hd => h d (by simp [hd])
    simp [List.cons_append, List.dropWhile_cons, hc, ht]

theorem expectChar_cons_self (c : Char) (r : List Char) :
    expectChar c (c :: r) = some r := by simp [expectChar]

theorem dateFromIsoParts_dateIso (d : PyDate) (rest : List Char)
    (hy1 : 1 ≤ d.year) (hy2 : d.year ≤ 9999) (hm1 : 1 ≤ d.month) (hm2 : d.month ≤ 12)
    (hd1 : 1 ≤ d.day) (hd2 : d.day ≤ 31) :
    dateFromIsoParts (dateIso d ++ rest) = some (d, rest) := by
  obtain ⟨y, m, dd⟩ := d
  simp only at hy1 hy2 hm1 hm2 hd1 hd2
  have hy : y < 10 ^ 4 := by norm_num; omega
  have hm : m < 10 ^ 2 := by norm_num; omega
  have hd : dd < 10 ^ 2 := by norm_num; omega
  simp only [dateIso, List.append_assoc, List.cons_append]
  unfold dateFromIsoParts
  rw [parseFixed_padN (by omega) hy]
  simp only [Option.some_bind]
  rw [expectChar_cons_self]
  simp only [Option.some_bind]
  rw [parseFixed_padN (by omega) hm]
  simp only [Option.some_bind]
  rw [expectChar_cons_self]
  simp only [Option.some_bind]
  rw [parseFixed_padN (by omega) hd]
  simp only [Option.some_bind]
  simp only [if_pos (show 1 ≤ y ∧ 1 ≤ m ∧ m ≤ 12 ∧ 1 ≤ dd ∧ dd ≤ 31 by omega)]

theorem dateFromIso_dateIso (d : PyDate)
    (hy1 : 1 ≤ d.year) (hy2 : d.year ≤ 9999) (hm1 : 1 ≤ d.month) (hm2 : d.month ≤ 12)
    (hd1 : 1 ≤ d.day) (hd2 : d.day ≤ 31) :
    dateFromIso (dateIso d) = some d := by
  unfold dateFromIso
  rw [show dateIso d = dateIso d ++ [] by simp,
    dateFromIsoParts_dateIso d [] hy1 hy2 hm1 hm2 hd1 hd2]
  rfl

theorem timeFromIso_iso (hh' mi s us : Nat) (hhn : hh' < 10 ^ 2)
    (hmin : mi < 10 ^ 2) (hsn : s < 10 ^ 2) (husn : us < 10 ^ 6) :
    timeFromIso (padN 2 hh' ++ ':' :: (padN 2 mi ++ ':' :: (padN 2 s ++
      (if us = 0 then [] else '.' :: padN 6 us)))) = some (hh', mi, s, us) := by
  unfold timeFromIso
  rw [parseFixed_padN (by omega) hhn]
  simp only [Option.some_bind]
  rw [expectChar_cons_self]
  simp only [Option.some_bind]
  rw [parseFixed_padN (by omega) hmin]
  simp only [Option.some_bind]
  by_cases h0 : us = 0
  · subst h0
    simp only [if_true, List.append_nil]
    simp only [timeTail2, if_pos rfl]
    rw [show padN 2 s = padN 2 s ++ ([] : List Char) by simp,
      parseFixed_padN (by omega) hsn]
    simp [timeTail3]
  · simp only [if_neg h0]
    simp only [timeTail2, if_pos rfl]
    rw [parseFixed_padN (by omega) hsn]
    simp only [Option.some_bind, timeTail3, if_pos rfl]
    rw [show padN 6 us = padN 6 us ++ ([] : List Char) by simp,
      parseFixed_padN (by omega) husn]
    simp

theorem dtFromIso_dtIso (t : PyDatetime)
    (hy1 : 1 ≤ t.year) (hy2 : t.year ≤ 9999) (hm1 : 1 ≤ t.month) (hm2 : t.month ≤ 12)
    (hd1 : 1 ≤ t.day) (hd2 : t.day ≤ 31) (hh : t.hour ≤ 23) (hmi : t.minute ≤ 59)
    (hs : t.second ≤ 59) (hus : t.microsecond ≤ 999999) :
    dtFromIso (dtIso t) = some t := by
  obtain ⟨y, m, dd, hh', mi, s, us⟩ := t
  simp only at hy1 hy2 hm1 hm2 hd1 hd2 hh hmi hs hus
  simp only [dtIso]
  unfold dtFromIso
  rw [dateFromIsoParts_dateIso ⟨y, m, dd⟩ _ hy1 hy2 hm1 hm2 hd1 hd2]
  simp only [Option.some_bind, dtTail]
  rw [timeFromIso_iso hh' mi s us (by norm_num; omega) (by norm_num; omega)
    (by norm_num; omega) (by norm_num; omega)]
  simp only [Option.some_bind]
  simp only [if_pos (show hh' ≤ 23 ∧ mi ≤ 59 ∧ s ≤ 59 by omega)]

theorem notExpCh_of_digit {ch : Char} (h : isDigitCh ch = true) : notExpCh ch = true := by
  by_cases hE : ch = 'E'
  · subst hE; exact absurd h (by decide)
  by_cases he : ch = 'e'
  · subst he; exact absurd h (by decide)
  simp [notExpCh, hE, he]

theorem notDotCh_of_digit {ch : Char} (h : isDigitCh ch = true) : notDotCh ch = true := by
  by_cases hd : ch = '.'
  · subst hd; exact absurd h (by decide)
  simp [notDotCh, hd]

theorem mem_replicate_zero_digit {k : Nat} {ch : Char}
    (h : ch ∈ List.replicate k '0') : isDigitCh ch = true := by
  rw [List.eq_of_mem_replicate h]; decide

theorem stripSign_dash (r : List Char) : stripSign ('-' :: r) = (true, r) := by
  simp [stripSign]

theorem stripSign_plus (r : List Char) : stripSign ('+' :: r) = (false, r) := by
  simp [stripSign]

theorem stripSign_digit {d : Char} (r : List Char) (hd : isDigitCh d = true) :
    stripSign (d :: r) = (false, d :: r) := by
  have h1 : d ≠ '-' := fun h => absurd (h ▸ hd) (by decide)
  have h2 : d ≠ '+' := fun h => absurd (h ▸ hd) (by decide)
  simp [stripSign, h1, h2]

theorem decimalParseExp_marker {c : Char} {es D : List Char} {sg : Bool}
    (hs : stripSign es = (sg, D)) (hne : D ≠ []) (hdig : D.all isDigitCh = true) :
    decimalParseExp (c :: es) =
      some (if sg then -(digitsValAux 0 D : Int) else (digitsValAux 0 D : Int)) := by
  simp only [decimalParseExp, hs]
  simp [hne, hdig]

theorem mantIp_plain {mant : List Char} (h : ∀ ch ∈ mant, isDigitCh ch = true) :
    mantIp mant = mant :=
  takeWhile_eq_self fun c hc => notDotCh_of_digit (h c hc)

theorem mantFp_plain {mant : List Char} (h : ∀ ch ∈ mant, isDigitCh ch = true) :
    mantFp mant = [] := by
  unfold mantFp
  rw [dropWhile_eq_nil fun c hc => notDotCh_of_digit (h c hc)]
  rfl

theorem mantIp_dotted {a : List Char} (b : List Char)
    (h : ∀ ch ∈ a, isDigitCh ch = true) : mantIp (a ++ '.' :: b) = a :=
  takeWhile_append_stop b (fun c hc => notDotCh_of_digit (h c hc)) (by decide)

theorem mantFp_dotted {a : List Char} (b : List Char)
    (h : ∀ ch ∈ a, isDigitCh ch = true) : mantFp (a ++ '.' :: b) = b := by
  unfold mantFp
  rw [dropWhile_append_stop b (fun c hc => notDotCh_of_digit (h c hc)) (by decide)]
  rfl

theorem decimalParseMant_plain {mant : List Char}
    (h : ∀ ch ∈ mant, isDigitCh ch = true) (hne : mant ≠ []) (E : Int) (ng : Bool) :
    decimalParseMant mant E ng = some ⟨ng, digitsValAux 0 mant, E⟩ := by
  unfold decimalParseMant
  rw [mantIp_plain h, mantFp_plain h]
  simp [List.all_eq_true.mpr h, hne]

theorem decimalParseMant_dotted {a : List Char} (b : List Char)
    (ha : ∀ ch ∈ a, isDigitCh ch = true) (hb : ∀ ch ∈ b, isDigitCh ch = true)
    (hane : a ≠ []) (E : Int) (ng : Bool) :
    decimalParseMant (a ++ '.' :: b) E ng =
      some ⟨ng, digitsValAux 0 (a ++ b), E - b.length⟩ := by
  unfold decimalParseMant
  rw [mantIp_dotted b ha, mantFp_dotted b ha]
  simp [List.all_eq_true.mpr ha, List.all_eq_true.mpr hb, hane]

theorem decimalParseExp_nil : decimalParseExp [] = some 0 := rfl

theorem stripSign_decimalStr {x : PyDecimal} {d : Char} {tl : List Char}
    (hb : decimalBody x = d :: tl) (hd : isDigitCh d = true) :
    stripSign (decimalStr x) = (x.neg, d :: tl) := by
  unfold decimalStr
  cases hng : x.neg
  · simp only [Bool.false_eq_true, if_false]
    rw [hb, stripSign_digit tl hd]
  · simp only [if_true]
    rw [hb, stripSign_dash]

theorem decimalParse_decimalStr (x : PyDecimal) : decimalParse (decimalStr x) = some x := by
  obtain ⟨ng, c, e⟩ := x
  have hall : ∀ ch ∈ natToChars c, isDigitCh ch = true := fun ch hch =>
    List.all_eq_true.mp (natToChars_all_digits c) ch hch
  have hlen : 1 ≤ (natToChars c).length := natToChars_length_pos c
  have hne : natToChars c ≠ [] := by
    intro h; rw [h] at hlen; simp at hlen
  have hval : digitsValAux 0 (natToChars c) = c := digitsVal_natToChars c
  obtain ⟨d0, tl, hds⟩ := List.exists_cons_of_ne_nil hne
  have hd0 : isDigitCh d0 = true := hall d0 (by rw [hds]; exact List.mem_cons_self _ _)
  have htl : ∀ ch ∈ tl, isDigitCh ch = true := fun ch hch =>
    hall ch (by rw [hds]; exact List.mem_cons_of_mem _ hch)
  by_cases hcond : e ≤ 0 ∧ -6 ≤ decAdj ⟨ng, c, e⟩
  · by_cases he0 : e = 0
    · -- plain digit string, no decimal point
      have hbody : decimalBody ⟨ng, c, e⟩ = natToChars c := by
        unfold decimalBody
        rw [if_pos hcond, if_pos he0]
      have hstrip := stripSign_decimalStr (hbody.trans hds) hd0
      unfold decimalParse
      simp only [hstrip]
      rw [← hds, dropWhile_eq_nil fun ch hch => notExpCh_of_digit (hall ch hch),
        decimalParseExp_nil,
        takeWhile_eq_self fun ch hch => notExpCh_of_digit (hall ch hch)]
      simp only [Option.some_bind]
      rw [decimalParseMant_plain hall hne 0 ng]
      simp [hval, he0]
    · by_cases hadjneg : decAdj ⟨ng, c, e⟩ < 0
      · -- 0.00…digits form
        have hbody : decimalBody ⟨ng, c, e⟩ = '0' :: '.' ::
            (List.replicate (-(decAdj ⟨ng, c, e⟩ + 1)).toNat '0' ++ natToChars c) := by
          unfold decimalBody
          rw [if_pos hcond, if_neg he0, if_pos hadjneg]
        have hRdig : ∀ ch ∈ List.replicate (-(decAdj ⟨ng, c, e⟩ + 1)).toNat '0' ++
            natToChars c, isDigitCh ch = true := by
          intro ch hch
          rcases List.mem_append.mp hch with h | h
          · exact mem_replicate_zero_digit h
          · exact hall ch h
        have hstrip := stripSign_decimalStr hbody (by decide)
        unfold decimalParse
        simp only [hstrip]
        have hbodyAll : ∀ ch ∈ ('0' : Char) :: '.' ::
            (List.replicate (-(decAdj ⟨ng, c, e⟩ + 1)).toNat '0' ++ natToChars c),
            notExpCh ch = true := by
          intro ch hch
          rcases List.mem_cons.mp hch with h | hch2
          · subst h; decide
          rcases List.mem_cons.mp hch2 with h | hch3
          · subst h; decide
          exact notExpCh_of_digit (hRdig ch hch3)
        rw [dropWhile_eq_nil hbodyAll, decimalParseExp_nil, takeWhile_eq_self hbodyAll]
        simp only [Option.some_bind]
        rw [show ('0' : Char) :: '.' ::
            (List.replicate (-(decAdj ⟨ng, c, e⟩ + 1)).toNat '0' ++ natToChars c) =
            ['0'] ++ '.' ::
            (List.replicate (-(decAdj ⟨ng, c, e⟩ + 1)).toNat '0' ++ natToChars c) from rfl]
        rw [decimalParseMant_dotted _ (by intro ch hch; simp at hch; subst hch; decide)
          hRdig (by simp) 0 ng]
        rw [digitsValAux_append, show digitsValAux 0 ['0'] = 0 from by decide,
          digitsValAux_append, digitsValAux_replicate_zero, hval]
        have hL : 1 ≤ (natToChars c).length := hlen
        have hadj : decAdj ⟨ng, c, e⟩ = e + (natToChars c).length - 1 := rfl
        simp only [List.length_append, List.length_replicate]
        rw [Option.some.injEq, PyDecimal.mk.injEq]
        refine ⟨rfl, rfl, ?_⟩
        rw [hadj] at hadjneg ⊢
        push_cast
        omega
      · -- digits with an interior decimal point
        have hk1 : (1 : Int) ≤ (natToChars c).length + e := by
          have hadj : decAdj ⟨ng, c, e⟩ = e + (natToChars c).length - 1 := rfl
          rw [hadj] at hadjneg
          omega
        have hkL : (((natToChars c).length : Int) + e).toNat ≤ (natToChars c).length := by
          omega
        have hbody : decimalBody ⟨ng, c, e⟩ =
            (natToChars c).take (((natToChars c).length : Int) + e).toNat ++
            '.' :: (natToChars c).drop (((natToChars c).length : Int) + e).toNat := by
          unfold decimalBody
          rw [if_pos hcond, if_neg he0, if_neg hadjneg]
        have htake : ∀ ch ∈ (natToChars c).take (((natToChars c).length : Int) + e).toNat,
            isDigitCh ch = true := fun ch hch => hall ch (List.take_subset _ _ hch)
        have hdrop : ∀ ch ∈ (natToChars c).drop (((natToChars c).length : Int) + e).toNat,
            isDigitCh ch = true := fun ch hch => hall ch (List.drop_subset _ _ hch)
        have htakene : (natToChars c).take (((natToChars c).length : Int) + e).toNat ≠ [] := by
          rw [← List.length_pos, List.length_take]
          omega
        have hbody2 : decimalBody ⟨ng, c, e⟩ =
            ((natToChars c).take (((natToChars c).length : Int) + e).toNat).head htakene ::
            (((natToChars c).take (((natToChars c).length : Int) + e).toNat).tail ++
            '.' :: (natToChars c).drop (((natToChars c).length : Int) + e).toNat) := by
          rw [hbody, ← List.cons_append, List.head_cons_tail]
        have hstrip := stripSign_decimalStr hbody2
          (htake _ (List.head_mem htakene))
        unfold decimalParse
        simp only [hstrip]
        rw [← hbody2, hbody]
        have hbodyAll : ∀ ch ∈
            (natToChars c).take (((natToChars c).length : Int) + e).toNat ++
            '.' :: (natToChars c).drop (((natToChars c).length : Int) + e).toNat,
            notExpCh ch = true := by
          intro ch hch
          rcases List.mem_append.mp hch with h | hch2
          · exact notExpCh_of_digit (htake ch h)
          rcases List.mem_cons.mp hch2 with h | hch3
          · subst h; decide
          exact notExpCh_of_digit (hdrop ch hch3)
        rw [dropWhile_eq_nil hbodyAll, decimalParseExp_nil, takeWhile_eq_self hbodyAll]
        simp only [Option.some_bind]
        rw [decimalParseMant_dotted _ htake hdrop htakene 0 ng]
        rw [List.take_append_drop, hval]
        rw [Option.some.injEq, PyDecimal.mk.injEq]
        refine ⟨rfl, rfl, ?_⟩
        rw [List.length_drop]
        omega
  · -- scientific notation
    have hmantAll : ∀ ch ∈ (if (natToChars c).length = 1 then natToChars c
        else (natToChars c).take 1 ++ '.' :: (natToChars c).drop 1),
        notExpCh ch = true := by
      intro ch hch
      by_cases hL1 : (natToChars c).length = 1
      · rw [if_pos hL1] at hch
        exact notExpCh_of_digit (hall ch hch)
      · rw [if_neg hL1] at hch
        rcases List.mem_append.mp hch with h | hch2
        · exact notExpCh_of_digit (hall ch (List.take_subset _ _ h))
        rcases List.mem_cons.mp hch2 with h | hch3
        · subst h; decide
        exact notExpCh_of_digit (hall ch (List.drop_subset _ _ hch3))
    have hbody : decimalBody ⟨ng, c, e⟩ =
        (if (natToChars c).length = 1 then natToChars c
         else (natToChars c).take 1 ++ '.' :: (natToChars c).drop 1) ++
        'E' :: (if decAdj ⟨ng, c, e⟩ < 0 then '-' :: natToChars (-(decAdj ⟨ng, c, e⟩)).toNat
                else '+' :: natToChars (decAdj ⟨ng, c, e⟩).toNat) := by
      unfold decimalBody
      rw [if_neg hcond]
    have hmanthead : decimalBody ⟨ng, c, e⟩ = d0 ::
        ((if (natToChars c).length = 1 then natToChars c
          else (natToChars c).take 1 ++ '.' :: (natToChars c).drop 1).tail ++
        'E' :: (if decAdj ⟨ng, c, e⟩ < 0 then '-' :: natToChars (-(decAdj ⟨ng, c, e⟩)).toNat
                else '+' :: natToChars (decAdj ⟨ng, c, e⟩).toNat)) := by
      rw [hbody]
      by_cases hL1 : (natToChars c).length = 1
      · rw [if_pos hL1, hds]
        rfl
      · rw [if_neg hL1, hds]
        rfl
    have hstrip := stripSign_decimalStr hmanthead hd0
    unfold decimalParse
    simp only [hstrip]
    rw [← hmanthead, hbody]
    rw [dropWhile_append_stop _ hmantAll (by decide),
      takeWhile_append_stop _ hmantAll (by decide)]
    have hExp : decimalParseExp
        ('E' :: (if decAdj ⟨ng, c, e⟩ < 0 then '-' :: natToChars (-(decAdj ⟨ng, c, e⟩)).toNat
                 else '+' :: natToChars (decAdj ⟨ng, c, e⟩).toNat)) =
        some (decAdj ⟨ng, c, e⟩) := by
      by_cases hA : decAdj ⟨ng, c, e⟩ < 0
      · rw [if_pos hA]
        rw [decimalParseExp_marker (stripSign_dash _)
          (by
            have := natToChars_length_pos (-(decAdj ⟨ng, c, e⟩)).toNat
            intro hcontra
            rw [hcontra] at this
            simp at this)
          (natToChars_all_digits _)]
        rw [if_pos rfl, digitsVal_natToChars]
        rw [Option.some.injEq]
        omega
      · rw [if_neg hA]
        rw [decimalParseExp_marker (stripSign_plus _)
          (by
            have := natToChars_length_pos (decAdj ⟨ng, c, e⟩).toNat
            intro hcontra
            rw [hcontra] at this
            simp at this)
          (natToChars_all_digits _)]
        rw [if_neg (by simp), digitsVal_natToChars]
        rw [Option.some.injEq]
        omega
    rw [hExp]
    simp only [Option.some_bind]
    have hadj : decAdj ⟨ng, c, e⟩ = e + (natToChars c).length - 1 := rfl
    by_cases hL1 : (natToChars c).length = 1
    · rw [if_pos hL1]
      rw [decimalParseMant_plain hall hne _ ng, hval]
      rw [Option.some.injEq, PyDecimal.mk.injEq]
      refine ⟨rfl, rfl, ?_⟩
      rw [hadj, hL1]
      push_cast
      omega
    · rw [if_neg hL1]
      rw [decimalParseMant_dotted _ (fun ch hch => hall ch (List.take_subset _ _ hch))
        (fun ch hch => hall ch (List.drop_subset _ _ hch))
        (by rw [hds]; simp) _ ng]
      rw [List.take_append_drop, hval]
      rw [Option.some.injEq, PyDecimal.mk.injEq]
      refine ⟨rfl, rfl, ?_⟩
      rw [List.length_drop, hadj]
      omega

/-! ### Splitter lemmas: the partition is lossless and its opaque segments
are well formed -/

theorem closeQuote_spec {q : Char} {cs m r : List Char}
    (h : closeQuote q cs = some (m, r)) :
    cs = m ++ r ∧ ∃ mid, m = mid ++ [q] ∧ ∀ ch ∈ mid, ch ≠ q ∧ ch ≠ '\n' := by
  induction cs generalizing m with
  | nil => simp [closeQuote] at h
  | cons c cs ih =>
    rw [closeQuote] at h
    by_cases hq : c = q
    · rw [if_pos hq] at h
      simp only [Option.some.injEq, Prod.mk.injEq] at h
      obtain ⟨h1, h2⟩ := h
      subst h1
      subst h2
      exact ⟨rfl, [], by simp [hq], by simp⟩
    · rw [if_neg hq] at h
      by_cases hn : c = '\n'
      · rw [if_pos hn] at h
        simp at h
      · rw [if_neg hn] at h
        cases hcq : closeQuote q cs with
        | none => rw [hcq] at h; simp at h
        | some p =>
          obtain ⟨m', r'⟩ := p
          rw [hcq] at h
          simp only [Option.some.injEq, Prod.mk.injEq] at h
          obtain ⟨h1, h2⟩ := h
          subst h1
          subst h2
          obtain ⟨hcs, mid, hm, hall⟩ := ih hcq
          refine ⟨by rw [hcs]; rfl, c :: mid, by rw [hm]; rfl, ?_⟩
          intro ch hch
          rcases List.mem_cons.mp hch with hc | hc
          · subst hc; exact ⟨hq, hn⟩
          · exact hall ch hc

theorem closeQuote_length {q : Char} {cs m r : List Char}
    (h : closeQuote q cs = some (m, r)) : r.length < cs.length := by
  obtain ⟨hcs, mid, hm, _⟩ := closeQuote_spec h
  rw [hcs, hm]
  simp
  omega

theorem closeComment_spec {cs m r : List Char}
    (h : closeComment cs = some (m, r)) :
    cs = m ++ r ∧ ∃ mid, m = mid ++ ['\n'] ∧ ∀ ch ∈ mid, ch ≠ '\n' := by
  induction cs generalizing m with
  | nil => simp [closeComment] at h
  | cons c cs ih =>
    rw [closeComment] at h
    by_cases hn : c = '\n'
    · rw [if_pos hn] at h
      simp only [Option.some.injEq, Prod.mk.injEq] at h
      obtain ⟨h1, h2⟩ := h
      subst h1
      subst h2
      exact ⟨rfl, [], by simp [hn], by simp⟩
    · rw [if_neg hn] at h
      cases hcq : closeComment cs with
      | none => rw [hcq] at h; simp at h
      | some p =>
        obtain ⟨m', r'⟩ := p
        rw [hcq] at h
        simp only [Option.some.injEq, Prod.mk.injEq] at h
        obtain ⟨h1, h2⟩ := h
        subst h1
        subst h2
        obtain ⟨hcs, mid, hm, hall⟩ := ih hcq
        refine ⟨by rw [hcs]; rfl, c :: mid, by rw [hm]; rfl, ?_⟩
        intro ch hch
        rcases List.mem_cons.mp hch with hc | hc
        · subst hc; exact hn
        · exact hall ch hc

theorem closeComment_length {cs m r : List Char}
    (h : closeComment cs = some (m, r)) : r.length < cs.length := by
  obtain ⟨hcs, mid, hm, _⟩ := closeComment_spec h
  rw [hcs, hm]
  simp
  omega

theorem joinSegs_append (a b : List Seg) :
    joinSegs (a ++ b) = joinSegs a ++ joinSegs b := by
  induction a with
  | nil => rfl
  | cons s rest ih => simp [joinSegs, ih]

theorem joinSegs_emit (acc : List Char) :
    joinSegs (if acc = [] then [] else [Seg.code acc.reverse]) = acc.reverse := by
  by_cases ha : acc = [] <;> simp [ha, joinSegs, segStr]

theorem joinSegs_splitSqlAux :
    ∀ fuel acc rest, rest.length ≤ fuel →
      joinSegs (splitSqlAux fuel acc rest) = acc.reverse ++ rest := by
  intro fuel
  induction fuel with
  | zero =>
    intro acc rest h
    have hr : rest = [] := List.eq_nil_of_length_eq_zero (Nat.le_zero.mp h)
    subst hr
    by_cases ha : acc = [] <;> simp [splitSqlAux, ha, joinSegs, segStr]
  | succ f ih =>
    intro acc rest h
    cases rest with
    | nil => by_cases ha : acc = [] <;> simp [splitSqlAux, ha, joinSegs, segStr]
    | cons c cs =>
      have hcs : cs.length ≤ f := by simp at h; omega
      simp only [splitSqlAux]
      by_cases hqc : c = '\'' ∨ c = '"'
      · rw [if_pos hqc]
        cases hcq : closeQuote c cs with
        | some p =>
          obtain ⟨m, r⟩ := p
          have hr : r.length ≤ f := by
            have := closeQuote_length hcq
            omega
          obtain ⟨hsplit, _⟩ := closeQuote_spec hcq
          rw [joinSegs_append, joinSegs_emit]
          simp only [joinSegs, segStr, ih [] r hr, List.reverse_nil, List.nil_append]
          rw [hsplit]
          simp
        | none =>
          rw [ih (c :: acc) cs hcs]
          simp
      · rw [if_neg hqc]
        by_cases hdash : c = '-'
        · rw [if_pos hdash]
          cases cs with
          | nil =>
            rw [ih (c :: acc) [] (by simp)]
            simp
          | cons c2 cs2 =>
            simp only []
            by_cases hd2 : c2 = '-'
            · rw [if_pos hd2]
              cases hcc : closeComment cs2 with
              | some p =>
                obtain ⟨m, r⟩ := p
                have hr : r.length ≤ f := by
                  have := closeComment_length hcc
                  simp at hcs
                  omega
                obtain ⟨hsplit, _⟩ := closeComment_spec hcc
                rw [joinSegs_append, joinSegs_emit]
                simp only [joinSegs, segStr, ih [] r hr, List.reverse_nil,
                  List.nil_append]
                rw [hsplit]
                simp
              | none =>
                rw [ih (c :: acc) (c2 :: cs2) hcs]
                simp
            · rw [if_neg hd2]
              rw [ih (c :: acc) (c2 :: cs2) hcs]
              simp
        · rw [if_neg hdash]
          rw [ih (c :: acc) cs hcs]
          simp

theorem joinSegs_splitSql (sql : List Char) : joinSegs (splitSql sql) = sql := by
  simpa using joinSegs_splitSqlAux sql.length [] sql (Nat.le_refl _)

theorem litOkB_quote {q : Char} {mid : List Char} (hq : q = '\'' ∨ q = '"')
    (hmid : ∀ ch ∈ mid, ch ≠ q ∧ ch ≠ '\n') :
    litOkB (q :: (mid ++ [q])) = true := by
  simp only [litOkB]
  rw [if_pos hq]
  simp only [List.getLast?_concat, List.dropLast_concat, beq_self_eq_true,
    Bool.true_and, List.all_eq_true]
  intro ch hch
  obtain ⟨h1, h2⟩ := hmid ch hch
  simp [h1, h2]

theorem litOkB_comment {mid : List Char} (hmid : ∀ ch ∈ mid, ch ≠ '\n') :
    litOkB ('-' :: '-' :: (mid ++ ['\n'])) = true := by
  simp only [litOkB]
  rw [if_neg (by simp)]
  simp only [if_true, List.getLast?_concat, List.dropLast_concat, beq_self_eq_true,
    Bool.true_and, Bool.and_true, List.all_eq_true]
  intro ch hch
  simp [hmid ch hch]

theorem splitSqlAux_lit_ok :
    ∀ fuel acc rest, rest.length ≤ fuel →
      ∀ cs, Seg.lit cs ∈ splitSqlAux fuel acc rest → litOkB cs = true := by
  intro fuel
  induction fuel with
  | zero =>
    intro acc rest h cs hmem
    have hr : rest = [] := List.eq_nil_of_length_eq_zero (Nat.le_zero.mp h)
    subst hr
    by_cases ha : acc = [] <;> simp [splitSqlAux, ha] at hmem
  | succ f ih =>
    intro acc rest h cs hmem
    cases rest with
    | nil =>
      by_cases ha : acc = [] <;> simp [splitSqlAux, ha] at hmem
    | cons c cs0 =>
      have hcs : cs0.length ≤ f := by simp at h; omega
      simp only [splitSqlAux] at hmem
      by_cases hqc : c = '\'' ∨ c = '"'
      · rw [if_pos hqc] at hmem
        cases hcq : closeQuote c cs0 with
        | some p =>
          obtain ⟨m, r⟩ := p
          rw [hcq] at hmem
          have hr : r.length ≤ f := by
            have := closeQuote_length hcq
            omega
          rcases List.mem_append.mp hmem with hin | hin
          · by_cases ha : acc = [] <;> simp [ha] at hin
          rcases List.mem_cons.mp hin with hlit | hin2
          · obtain ⟨_, mid, hm, hmid⟩ := closeQuote_spec hcq
            have hcs' : cs = c :: m := by
              injection hlit with h2
            rw [hcs', hm]
            exact litOkB_quote hqc hmid
          · exact ih [] r hr cs hin2
        | none =>
          rw [hcq] at hmem
          exact ih (c :: acc) cs0 hcs cs hmem
      · rw [if_neg hqc] at hmem
        by_cases hdash : c = '-'
        · rw [if_pos hdash] at hmem
          cases cs0 with
          | nil => exact ih (c :: acc) [] (by simp) cs hmem
          | cons c2 cs2 =>
            simp only [] at hmem
            by_cases hd2 : c2 = '-'
            · rw [if_pos hd2] at hmem
              cases hcc : closeComment cs2 with
              | some p =>
                obtain ⟨m, r⟩ := p
                rw [hcc] at hmem
                have hr : r.length ≤ f := by
                  have := closeComment_length hcc
                  simp at hcs
                  omega
                rcases List.mem_append.mp hmem with hin | hin
                · by_cases ha : acc = [] <;> simp [ha] at hin
                rcases List.mem_cons.mp hin with hlit | hin2
                · obtain ⟨_, mid, hm, hmid⟩ := closeComment_spec hcc
                  have hcs' : cs = c :: c2 :: m := by
                    injection hlit with h2
                  rw [hcs', hm, hdash, hd2]
                  exact litOkB_comment hmid
                · exact ih [] r hr cs hin2
              | none =>
                rw [hcc] at hmem
                exact ih (c :: acc) (c2 :: cs2) hcs cs hmem
            · rw [if_neg hd2] at hmem
              exact ih (c :: acc) (c2 :: cs2) hcs cs hmem
        · rw [if_neg hdash] at hmem
          exact ih (c :: acc) cs0 hcs cs hmem

theorem splitSql_lit_ok (sql : List Char) :
    ∀ cs, Seg.lit cs ∈ splitSql sql → litOkB cs = true :=
  splitSqlAux_lit_ok sql.length [] sql (Nat.le_refl _)

/-! ### Propagation lemmas -/

theorem pp_snd (sizes : List (Nat × Nat)) :
    ∀ code idx, (_propagate_positional_params sizes idx code).2 = idx + code.count '?' := by
  intro code
  induction code with
  | nil => intro idx; simp [_propagate_positional_params]
  | cons c cs ih =>
    intro idx
    by_cases hc : c = '?'
    · simp only [_propagate_positional_params, if_pos hc, ih, List.count_cons, hc]
      simp
      omega
    · simp only [_propagate_positional_params, if_neg hc, ih, List.count_cons]
      have : (c == '?') = false := by simp [hc]
      simp [this]

theorem pp_append (sizes : List (Nat × Nat)) :
    ∀ a b idx,
      _propagate_positional_params sizes idx (a ++ b) =
        ((_propagate_positional_params sizes idx a).1 ++
          (_propagate_positional_params sizes
            ((_propagate_positional_params sizes idx a).2) b).1,
         (_propagate_positional_params sizes
            ((_propagate_positional_params sizes idx a).2) b).2) := by
  intro a
  induction a with
  | nil => intro b idx; simp [_propagate_positional_params]
  | cons c cs ih =>
    intro b idx
    by_cases hc : c = '?'
    · simp only [List.cons_append, _propagate_positional_params, if_pos hc, List.append_eq]
      rw [ih b (idx + 1)]
      simp [List.append_assoc]
    · simp only [List.cons_append, _propagate_positional_params, if_neg hc, List.append_eq]
      rw [ih b idx]

theorem qmarks_one : qmarks 1 = ['?'] := rfl

theorem pp_qmark (sizes : List (Nat × Nat)) (idx : Nat) (post : List Char) :
    _propagate_positional_params sizes idx ('?' :: post) =
      (qmarks ((lookupPos sizes idx).getD 1) ++
        (_propagate_positional_params sizes (idx + 1) post).1,
       (_propagate_positional_params sizes (idx + 1) post).2) := by
  cases hl : lookupPos sizes idx with
  | none => simp [_propagate_positional_params, hl, qmarks_one]
  | some k => simp [_propagate_positional_params, hl]

theorem qmarks_count : ∀ k, (qmarks k).count '?' = k := by
  intro k
  induction k with
  | zero => rfl
  | succ j ih =>
    cases j with
    | zero => rfl
    | succ i =>
      have step : qmarks (i + 2) = '?' :: ',' :: ' ' :: qmarks (i + 1) := by
        simp [qmarks, List.replicate, commaJoin]
      have h1 : ((',' : Char) == '?') = false := by decide
      have h2 : ((' ' : Char) == '?') = false := by decide
      have h3 : (('?' : Char) == '?') = true := by decide
      rw [step]
      simp only [List.count_cons, ih, h1, h2, h3]
      simp

theorem pp_no_lookup (sizes : List (Nat × Nat)) :
    ∀ code idx, (∀ j, j < code.count '?' → lookupPos sizes (idx + j) = none) →
      _propagate_positional_params sizes idx code = (code, idx + code.count '?') := by
  intro code
  induction code with
  | nil => intro idx _; simp [_propagate_positional_params]
  | cons c cs ih =>
    intro idx h
    by_cases hc : c = '?'
    · subst hc
      have hcount : ('?' :: cs).count '?' = cs.count '?' + 1 := by
        simp [List.count_cons]
      have h0 : lookupPos sizes idx = none := by
        have := h 0 (by omega)
        simpa using this
      have hrec := ih (idx + 1) (fun j hj => by
        have := h (j + 1) (by omega)
        rwa [show idx + (j + 1) = idx + 1 + j by omega] at this)
      have hx : _propagate_positional_params sizes idx ('?' :: cs) =
          ('?' :: cs, idx + 1 + cs.count '?') := by
        simp [_propagate_positional_params, h0, hrec]
      rw [hx, hcount]
      rw [Prod.mk.injEq]
      exact ⟨rfl, by omega⟩
    · have hcount : (c :: cs).count '?' = cs.count '?' := by
        have : (c == '?') = false := by simp [hc]
        simp [List.count_cons, this]
      have hrec := ih idx (fun j hj => h j (by rw [hcount]; exact hj))
      simp only [_propagate_positional_params, if_neg hc, hrec, hcount]

theorem adjustSegsPos_lit (sizes : List (Nat × Nat)) :
    ∀ segs1 idx cs segs2,
      (adjustSegsPos sizes idx (segs1 ++ Seg.lit cs :: segs2)).1 =
        (adjustSegsPos sizes idx segs1).1 ++ cs ++
          (adjustSegsPos sizes ((adjustSegsPos sizes idx segs1).2) segs2).1 ∧
      (adjustSegsPos sizes idx (segs1 ++ Seg.lit cs :: segs2)).2 =
        (adjustSegsPos sizes ((adjustSegsPos sizes idx segs1).2) segs2).2 := by
  intro segs1
  induction segs1 with
  | nil => intro idx cs segs2; simp [adjustSegsPos]
  | cons s rest ih =>
    intro idx cs segs2
    cases s with
    | code c0 =>
      simp only [List.cons_append, adjustSegsPos, List.append_eq]
      obtain ⟨ih1, ih2⟩ :=
        ih ((_propagate_positional_params sizes idx c0).2) cs segs2
      rw [ih1, ih2]
      simp [List.append_assoc]
    | lit c0 =>
      simp only [List.cons_append, adjustSegsPos, List.append_eq]
      obtain ⟨ih1, ih2⟩ := ih idx cs segs2
      rw [ih1, ih2]
      simp [List.append_assoc]

theorem adjustSegs_lit (f : List Char → List Char) :
    ∀ segs1 cs segs2,
      adjustSegs f (segs1 ++ Seg.lit cs :: segs2) =
        adjustSegs f segs1 ++ cs ++ adjustSegs f segs2 := by
  intro segs1
  induction segs1 with
  | nil => intro cs segs2; simp [adjustSegs]
  | cons s rest ih =>
    intro cs segs2
    cases s with
    | code c0 => simp [adjustSegs, ih, List.append_assoc]
    | lit c0 => simp [adjustSegs, ih, List.append_assoc]

theorem adjustSegsPos_empty_sizes :
    ∀ segs idx, (adjustSegsPos [] idx segs).1 = joinSegs segs := by
  intro segs
  induction segs with
  | nil => intro idx; simp [adjustSegsPos, joinSegs]
  | cons s rest ih =>
    intro idx
    cases s with
    | code c0 =>
      have hpp := pp_no_lookup [] c0 idx (fun j _ => rfl)
      simp only [adjustSegsPos, hpp, joinSegs, segStr]
      rw [ih]
    | lit c0 =>
      simp only [adjustSegsPos, joinSegs, segStr]
      rw [ih]

theorem adjustSegs_named_empty :
    ∀ segs, adjustSegs (_propagate_named_params []) segs = joinSegs segs := by
  intro segs
  induction segs with
  | nil => rfl
  | cons s rest ih =>
    cases s with
    | code c0 =>
      have : _propagate_named_params [] c0 = c0 := rfl
      simp [adjustSegs, joinSegs, segStr, this, ih]
    | lit c0 => simp [adjustSegs, joinSegs, segStr, ih]

theorem leadMatch_append {p : List Char} :
    ∀ {xs : List Char}, leadMatch p xs = true → p ++ xs.drop p.length = xs := by
  induction p with
  | nil => intro xs _; simp
  | cons q ps ih =>
    intro xs h
    cases xs with
    | nil => simp [leadMatch] at h
    | cons c cs =>
      rw [leadMatch] at h
      by_cases hq : q = c
      · rw [if_pos hq] at h
        subst hq
        simp only [List.cons_append, List.length_cons, List.drop_succ_cons]
        rw [ih h]
      · rw [if_neg hq] at h
        simp at h

theorem propNamedOneAux_of_countTokAux_zero (p rep : List Char) :
    ∀ fuel code, countTokAux p fuel code = 0 →
      propNamedOneAux p rep fuel code = code := by
  intro fuel
  induction fuel with
  | zero => intro code _; cases code <;> rfl
  | succ f ih =>
    intro code h
    cases code with
    | nil => rfl
    | cons c cs =>
      by_cases hlm : leadMatch p (c :: cs) = true
      · rw [countTokAux, if_pos hlm] at h
        by_cases hid : identNext ((c :: cs).drop p.length) = true
        · rw [if_pos hid] at h
          simp only [Nat.zero_add] at h
          rw [propNamedOneAux, if_pos hlm, if_pos hid, ih _ h]
          exact leadMatch_append hlm
        · rw [if_neg hid] at h
          omega
      · rw [countTokAux, if_neg hlm] at h
        rw [propNamedOneAux, if_neg hlm, ih _ h]

theorem propNamedOneAux_of_not_occurs (p rep : List Char) :
    ∀ fuel code, occursIn p code = false →
      propNamedOneAux p rep fuel code = code := by
  intro fuel
  induction fuel with
  | zero => intro code _; cases code <;> rfl
  | succ f ih =>
    intro code h
    cases code with
    | nil => rfl
    | cons c cs =>
      rw [occursIn, Bool.or_eq_false_iff] at h
      rw [propNamedOneAux, if_neg (by simp [h.1]), ih _ h.2]

/-! ### Characterization of the prepared parameter containers -/

theorem dictWrite_of_not_mem {κ α : Type} [DecidableEq κ] (k : κ) (v : α) :
    ∀ m : List (κ × α), k ∉ m.map Prod.fst → dictWrite m k v = m ++ [(k, v)] := by
  intro m
  induction m with
  | nil => intro _; rfl
  | cons kv rest ih =>
    intro h
    obtain ⟨k0, v0⟩ := kv
    rw [List.map_cons, List.mem_cons] at h
    push_neg at h
    rw [dictWrite, if_neg (fun he => h.1 he.symm), ih h.2]
    rfl

theorem encodeNamedElemsInto_ok (pname : List Char) :
    ∀ xs i acc out, encodeNamedElemsInto pname i xs acc = .ok out →
      out = (List.enumFrom i xs).foldl
        (fun m p => dictWrite m (synthKey pname p.1) ((encode_val p.2).getD .vNone))
        acc := by
  intro xs
  induction xs with
  | nil =>
    intro i acc out h
    simp only [encodeNamedElemsInto] at h
    injection h with h2
    simp [h2.symm, List.enumFrom]
  | cons v vs ih =>
    intro i acc out h
    rw [encodeNamedElemsInto] at h
    cases hv : encode_val v with
    | none => rw [hv] at h; simp at h
    | some ev =>
      rw [hv] at h
      rw [List.enumFrom]
      simp only [List.foldl_cons, hv, Option.getD_some]
      exact ih (i + 1) _ out h

theorem encodeNamedAux_params :
    ∀ ps acc sz rp szOut, encodeNamedAux ps acc sz = .ok (rp, szOut) →
      rp = specNamedParamsAux ps acc := by
  intro ps
  induction ps with
  | nil =>
    intro acc sz rp szOut h
    simp only [encodeNamedAux] at h
    injection h with h2
    cases h2
    rfl
  | cons pv ps ih =>
    intro acc sz rp szOut h
    obtain ⟨pname, v⟩ := pv
    rw [encodeNamedAux] at h
    rw [specNamedParamsAux, specNamedWriteOne]
    cases hv : encode_val v with
    | some ev =>
      rw [hv] at h
      simp only [hv]
      exact ih _ _ _ _ h
    | none =>
      rw [hv] at h
      simp only [hv]
      cases v with
      | vList xs =>
        rw [encodeNamedExpandInto] at h
        cases helems : encodeNamedElemsInto pname 0 xs acc with
        | error err => rw [helems] at h; simp at h
        | ok acc2 =>
          rw [helems] at h
          simp only [] at h
          rw [specNamedExpandWrite,
            ← encodeNamedElemsInto_ok pname xs 0 acc acc2 helems]
          exact ih _ _ _ _ h
      | vObj tok =>
        have he : encodeNamedExpandInto pname (.vObj tok) acc sz =
            .error (.typeError (wrongParamMsg pname (.vObj tok))) := rfl
        rw [he] at h
        simp at h
      | vBool b => simp [encode_val] at hv
      | vInt n => simp [encode_val] at hv
      | vFloat q => simp [encode_val] at hv
      | vStr s => simp [encode_val] at hv
      | vBytes bs => simp [encode_val] at hv
      | vNone => simp [encode_val] at hv
      | vDate d => simp [encode_val] at hv
      | vDatetime t => simp [encode_val] at hv
      | vDecimal x => simp [encode_val] at hv
      | vConform tok => simp [encode_val] at hv

theorem encodeNamed_ok_params :
    ∀ ps rp sz, encodeNamed ps = .ok (rp, sz) → rp = specNamedParams ps := by
  intro ps rp sz h
  rw [encodeNamed] at h
  rw [specNamedParams]
  exact encodeNamedAux_params ps [] [] rp sz h

theorem specNamedFlat_length :
    ∀ ps, (specNamedFlat ps).length = (ps.map namedWeight).sum := by
  intro ps
  induction ps with
  | nil => rfl
  | cons pv ps ih =>
    obtain ⟨pname, v⟩ := pv
    rw [specNamedFlat, List.length_append, ih]
    simp only [List.map_cons, List.sum_cons]
    congr 1
    rw [specNamedFlatOne, namedWeight]
    cases hv : encode_val v with
    | some ev => simp
    | none =>
      simp only []
      cases v with
      | vList xs =>
        rw [specNamedFlatExpand]
        simp [List.enumFrom_length, namedWeightExpand]
      | vBool b => simp [encode_val] at hv
      | vInt n => simp [encode_val] at hv
      | vFloat q => simp [encode_val] at hv
      | vStr s => simp [encode_val] at hv
      | vBytes bs => simp [encode_val] at hv
      | vNone => simp [encode_val] at hv
      | vDate d => simp [encode_val] at hv
      | vDatetime t => simp [encode_val] at hv
      | vDecimal x => simp [encode_val] at hv
      | vConform tok => simp [encode_val] at hv
      | vObj tok =>
        have h1 : specNamedFlatExpand pname (.vObj tok) = [] := rfl
        have h2 : namedWeightExpand (.vObj tok) = 0 := rfl
        rw [h1, h2]
        rfl

theorem specNamedFlatOne_keys (n : List Char) (v : PyVal) :
    (specNamedFlatOne n v).map Prod.fst = specNamedKeysOne n v := by
  rw [specNamedFlatOne, specNamedKeysOne]
  cases hv : encode_val v with
  | some ev => simp
  | none =>
    simp only []
    cases v with
    | vList xs =>
      rw [specNamedFlatExpand, specNamedKeysExpand, List.map_map]
      rfl
    | vObj tok => rfl
    | vBool b => simp [encode_val] at hv
    | vInt n0 => simp [encode_val] at hv
    | vFloat q => simp [encode_val] at hv
    | vStr s => simp [encode_val] at hv
    | vBytes bs => simp [encode_val] at hv
    | vNone => simp [encode_val] at hv
    | vDate d => simp [encode_val] at hv
    | vDatetime t => simp [encode_val] at hv
    | vDecimal x => simp [encode_val] at hv
    | vConform tok => simp [encode_val] at hv

theorem specNamedExpandWrite_foldl_append (n : List Char) :
    ∀ (xs : List PyVal) (i : Nat) (m : List (List Char × PyVal)),
      ((List.enumFrom i xs).map (fun p => synthKey n p.1)).Nodup →
      (∀ k ∈ (List.enumFrom i xs).map (fun p => synthKey n p.1),
        k ∉ m.map Prod.fst) →
      (List.enumFrom i xs).foldl
        (fun m2 p => dictWrite m2 (synthKey n p.1) ((encode_val p.2).getD .vNone))
        m =
        m ++ (List.enumFrom i xs).map
          (fun p => (synthKey n p.1, (encode_val p.2).getD .vNone)) := by
  intro xs
  induction xs with
  | nil =>
    intro i m _ _
    simp [List.enumFrom]
  | cons x xs ih =>
    intro i m hnd hfr
    have hcons : (List.enumFrom i (x :: xs)).map (fun p => synthKey n p.1) =
        synthKey n i :: (List.enumFrom (i + 1) xs).map (fun p => synthKey n p.1) :=
      rfl
    simp only [hcons] at hnd hfr
    rw [List.nodup_cons] at hnd
    have hkey : synthKey n i ∉ m.map Prod.fst := hfr _ (List.mem_cons_self _ _)
    have hfresh : ∀ k ∈ (List.enumFrom (i + 1) xs).map (fun p => synthKey n p.1),
        k ∉ (m ++ [(synthKey n i, (encode_val x).getD .vNone)]).map Prod.fst := by
      intro k hk
      rw [List.map_append, List.mem_append]
      push_neg
      constructor
      · exact hfr _ (List.mem_cons_of_mem _ hk)
      · simp only [List.map_cons, List.map_nil, List.mem_singleton]
        intro he
        exact hnd.1 (he ▸ hk)
    have hstep :
        (List.enumFrom i (x :: xs)).foldl
          (fun m2 p => dictWrite m2 (synthKey n p.1) ((encode_val p.2).getD .vNone))
          m =
        (List.enumFrom (i + 1) xs).foldl
          (fun m2 p => dictWrite m2 (synthKey n p.1) ((encode_val p.2).getD .vNone))
          (dictWrite m (synthKey n i) ((encode_val x).getD .vNone)) := rfl
    have hmap :
        (List.enumFrom i (x :: xs)).map
          (fun p => (synthKey n p.1, (encode_val p.2).getD .vNone)) =
        (synthKey n i, (encode_val x).getD .vNone) ::
          (List.enumFrom (i + 1) xs).map
            (fun p => (synthKey n p.1, (encode_val p.2).getD .vNone)) := rfl
    rw [hstep, hmap, dictWrite_of_not_mem _ _ m hkey, ih (i + 1) _ hnd.2 hfresh,
      List.append_assoc]
    rfl

theorem specNamedWriteOne_append (m : List (List Char × PyVal)) (n : List Char)
    (v : PyVal) (hnd : (specNamedKeysOne n v).Nodup)
    (hfr : ∀ k ∈ specNamedKeysOne n v, k ∉ m.map Prod.fst) :
    specNamedWriteOne m n v = m ++ specNamedFlatOne n v := by
  rw [specNamedWriteOne, specNamedFlatOne]
  cases hv : encode_val v with
  | some ev =>
    simp only [hv]
    have hn : n ∉ m.map Prod.fst := by
      apply hfr
      simp only [specNamedKeysOne, hv]
      exact List.mem_singleton_self _
    exact dictWrite_of_not_mem _ _ m hn
  | none =>
    simp only [hv]
    simp only [specNamedKeysOne, hv] at hnd hfr
    cases v with
    | vList xs =>
      rw [specNamedExpandWrite, specNamedFlatExpand]
      rw [specNamedKeysExpand] at hnd
      simp only [specNamedKeysExpand] at hfr
      exact specNamedExpandWrite_foldl_append n xs 0 m hnd hfr
    | vObj tok => simp [specNamedExpandWrite, specNamedFlatExpand]
    | vBool b => simp [encode_val] at hv
    | vInt n0 => simp [encode_val] at hv
    | vFloat q => simp [encode_val] at hv
    | vStr s => simp [encode_val] at hv
    | vBytes bs => simp [encode_val] at hv
    | vNone => simp [encode_val] at hv
    | vDate d => simp [encode_val] at hv
    | vDatetime t => simp [encode_val] at hv
    | vDecimal x => simp [encode_val] at hv
    | vConform tok => simp [encode_val] at hv

theorem specNamedParamsAux_append :
    ∀ (ps : List (List Char × PyVal)) (m : List (List Char × PyVal)),
      (specNamedKeys ps).Nodup →
      (∀ k ∈ specNamedKeys ps, k ∉ m.map Prod.fst) →
      specNamedParamsAux ps m = m ++ specNamedFlat ps := by
  intro ps
  induction ps with
  | nil =>
    intro m _ _
    simp [specNamedParamsAux, specNamedFlat]
  | cons pv ps ih =>
    intro m hnd hfr
    obtain ⟨n, v⟩ := pv
    simp only [specNamedKeys] at hnd hfr
    rw [List.nodup_append] at hnd
    obtain ⟨hnd1, hnd2, hdisj⟩ := hnd
    have hfr1 : ∀ k ∈ specNamedKeysOne n v, k ∉ m.map Prod.fst :=
      fun k hk => hfr k (List.mem_append_left _ hk)
    rw [specNamedParamsAux, specNamedFlat,
      specNamedWriteOne_append m n v hnd1 hfr1]
    have hfr2 : ∀ k ∈ specNamedKeys ps,
        k ∉ (m ++ specNamedFlatOne n v).map Prod.fst := by
      intro k hk
      rw [List.map_append, List.mem_append]
      push_neg
      refine ⟨hfr k (List.mem_append_right _ hk), ?_⟩
      rw [specNamedFlatOne_keys]
      exact fun hmem => hdisj hmem hk
    rw [ih _ hnd2 hfr2, List.append_assoc]

theorem specNamedParams_eq_flat (params : List (List Char × PyVal))
    (hnd : (specNamedKeys params).Nodup) :
    specNamedParams params = specNamedFlat params := by
  rw [specNamedParams,
    specNamedParamsAux_append params [] hnd (by intro k _; simp)]
  rfl

theorem encodePosElems_ok (pidx : Nat) :
    ∀ xs i elems, encodePosElems pidx i xs = .ok elems →
      elems = xs.map (fun x => (encode_val x).getD .vNone) := by
  intro xs
  induction xs with
  | nil =>
    intro i elems h
    simp only [encodePosElems] at h
    injection h with h2
    simp [h2.symm]
  | cons v vs ih =>
    intro i elems h
    rw [encodePosElems] at h
    cases hv : encode_val v with
    | none => rw [hv] at h; simp at h
    | some ev =>
      rw [hv] at h
      cases hrec : encodePosElems pidx (i + 1) vs with
      | error err => rw [hrec] at h; simp at h
      | ok rest =>
        rw [hrec] at h
        injection h with h2
        rw [← h2, List.map_cons, hv, ← ih (i + 1) rest hrec]
        rfl

theorem encodePositional_ok_params :
    ∀ vs pidx rp sz, encodePositional pidx vs = .ok (rp, sz) →
      rp = specPosParams vs := by
  intro vs
  induction vs with
  | nil =>
    intro pidx rp sz h
    simp only [encodePositional] at h
    injection h with h2
    cases h2
    rfl
  | cons v vs ih =>
    intro pidx rp sz h
    rw [encodePositional] at h
    rw [specPosParams, specPosOne]
    cases hv : encode_val v with
    | some ev =>
      rw [hv] at h
      simp only [hv]
      cases hrec : encodePositional (pidx + 1) vs with
      | error err => rw [hrec] at h; simp at h
      | ok q =>
        obtain ⟨rp0, sz0⟩ := q
        rw [hrec] at h
        injection h with h2
        cases h2
        rw [ih _ _ _ hrec]
        rfl
    | none =>
      rw [hv] at h
      simp only [hv]
      cases v with
      | vList xs =>
        rw [encodePosExpand] at h
        cases helems : encodePosElems pidx 0 xs with
        | error err => rw [helems] at h; simp at h
        | ok elems =>
          rw [helems] at h
          cases hrec : encodePositional (pidx + 1) vs with
          | error err => rw [hrec] at h; simp at h
          | ok q =>
            obtain ⟨rp0, sz0⟩ := q
            rw [hrec] at h
            injection h with h2
            cases h2
            rw [specPosExpand, ih _ _ _ hrec,
              encodePosElems_ok pidx xs 0 elems helems]
      | vObj tok =>
        have he : encodePosExpand pidx (.vObj tok) (encodePositional (pidx + 1) vs) =
            .error (.typeError (wrongParamMsgPos pidx (.vObj tok))) := rfl
        rw [he] at h
        simp at h
      | vBool b => simp [encode_val] at hv
      | vInt n => simp [encode_val] at hv
      | vFloat q => simp [encode_val] at hv
      | vStr s => simp [encode_val] at hv
      | vBytes bs => simp [encode_val] at hv
      | vNone => simp [encode_val] at hv
      | vDate d => simp [encode_val] at hv
      | vDatetime t => simp [encode_val] at hv
      | vDecimal x => simp [encode_val] at hv
      | vConform tok => simp [encode_val] at hv

theorem specPosParams_length :
    ∀ vs, (specPosParams vs).length = (vs.map posWeight).sum := by
  intro vs
  induction vs with
  | nil => rfl
  | cons v vs ih =>
    rw [specPosParams, List.length_append, ih]
    simp only [List.map_cons, List.sum_cons]
    congr 1
    rw [specPosOne, posWeight]
    cases hv : encode_val v with
    | some ev => simp
    | none =>
      simp only []
      cases v with
      | vList xs =>
        rw [specPosExpand]
        simp [namedWeightExpand]
      | vBool b => simp [encode_val] at hv
      | vInt n => simp [encode_val] at hv
      | vFloat q => simp [encode_val] at hv
      | vStr s => simp [encode_val] at hv
      | vBytes bs => simp [encode_val] at hv
      | vNone => simp [encode_val] at hv
      | vDate d => simp [encode_val] at hv
      | vDatetime t => simp [encode_val] at hv
      | vDecimal x => simp [encode_val] at hv
      | vConform tok => simp [encode_val] at hv
      | vObj tok =>
        have h1 : specPosExpand (.vObj tok) = [] := rfl
        have h2 : namedWeightExpand (.vObj tok) = 0 := rfl
        rw [h1, h2]
        rfl

theorem propNamedOneAux_fuel (p0 : Char) (ptl rep : List Char) :
    ∀ f1 f2 code, code.length ≤ f1 → code.length ≤ f2 →
      propNamedOneAux (p0 :: ptl) rep f1 code =
        propNamedOneAux (p0 :: ptl) rep f2 code := by
  intro f1
  induction f1 with
  | zero =>
    intro f2 code h1 _
    have hc : code = [] := List.length_eq_zero.mp (Nat.le_zero.mp h1)
    subst hc
    cases f2 <;> rfl
  | succ f ih =>
    intro f2 code h1 h2
    cases code with
    | nil => cases f2 <;> rfl
    | cons c cs =>
      cases f2 with
      | zero =>
        simp only [List.length_cons] at h2
        omega
      | succ f2p =>
        rw [propNamedOneAux, propNamedOneAux]
        by_cases hl : leadMatch (p0 :: ptl) (c :: cs) = true
        · rw [if_pos hl, if_pos hl]
          have hd1 : ((c :: cs).drop (p0 :: ptl).length).length ≤ f := by
            rw [List.length_drop]
            simp only [List.length_cons] at h1 ⊢
            omega
          have hd2 : ((c :: cs).drop (p0 :: ptl).length).length ≤ f2p := by
            rw [List.length_drop]
            simp only [List.length_cons] at h2 ⊢
            omega
          rw [ih f2p _ hd1 hd2]
        · rw [if_neg hl, if_neg hl]
          have hd1 : cs.length ≤ f := by
            simp only [List.length_cons] at h1
            omega
          have hd2 : cs.length ≤ f2p := by
            simp only [List.length_cons] at h2
            omega
          rw [ih f2p cs hd1 hd2]

theorem leadMatch_self_append :
    ∀ p rest : List Char, leadMatch p (p ++ rest) = true := by
  intro p
  induction p with
  | nil => intro rest; rfl
  | cons c cs ih =>
    intro rest
    rw [List.cons_append, leadMatch, if_pos rfl]
    exact ih rest

theorem propNamedOne_at (p0 : Char) (ptl rep post : List Char) :
    ∀ pre : List Char,
      (∀ i, i < pre.length →
        leadMatch (p0 :: ptl) ((pre ++ (p0 :: ptl) ++ post).drop i) = false) →
      identNext post = false →
      propNamedOne (p0 :: ptl) rep (pre ++ (p0 :: ptl) ++ post) =
        pre ++ rep ++ propNamedOne (p0 :: ptl) rep post := by
  intro pre
  induction pre with
  | nil =>
    intro _ hb
    simp only [List.nil_append]
    rw [propNamedOne]
    have hshape : (p0 :: ptl) ++ post = p0 :: (ptl ++ post) := rfl
    rw [hshape]
    simp only [List.length_cons]
    rw [propNamedOneAux]
    rw [← hshape]
    rw [if_pos (leadMatch_self_append (p0 :: ptl) post)]
    rw [List.drop_left]
    rw [if_neg (by rw [hb]; exact Bool.false_ne_true)]
    congr 1
    rw [propNamedOne]
    apply propNamedOneAux_fuel
    · rw [List.length_append]
      omega
    · exact Nat.le_refl _
  | cons a pre ih =>
    intro hpre hb
    have hshape : (a :: pre) ++ (p0 :: ptl) ++ post =
        a :: (pre ++ (p0 :: ptl) ++ post) := rfl
    rw [hshape, propNamedOne]
    simp only [List.length_cons]
    rw [propNamedOneAux]
    have h0 : leadMatch (p0 :: ptl) (a :: (pre ++ (p0 :: ptl) ++ post)) = false := by
      have h := hpre 0 (by simp only [List.length_cons]; omega)
      rw [List.drop_zero, hshape] at h
      exact h
    rw [if_neg (by rw [h0]; exact Bool.false_ne_true)]
    have hr : (a :: pre) ++ rep ++ propNamedOne (p0 :: ptl) rep post =
        a :: (pre ++ rep ++ propNamedOne (p0 :: ptl) rep post) := rfl
    rw [hr]
    congr 1
    have hpre2 : ∀ i, i < pre.length →
        leadMatch (p0 :: ptl) ((pre ++ (p0 :: ptl) ++ post).drop i) = false := by
      intro i hi
      have h := hpre (i + 1) (by simp only [List.length_cons]; omega)
      rw [hshape, List.drop_succ_cons] at h
      exact h
    exact ih hpre2 hb

theorem commaJoin_count_colon :
    ∀ xs : List (List Char),
      (commaJoin xs).count ':' = (xs.map (fun x => x.count ':')).sum := by
  intro xs
  induction xs with
  | nil => rfl
  | cons x ys ih =>
    cases ys with
    | nil => simp [commaJoin]
    | cons y rest =>
      have h1 : ((',' : Char) == ':') = false := by decide
      have h2 : ((' ' : Char) == ':') = false := by decide
      have h3 : (((':' : Char)) == ',') = false := by decide
      have h4 : (((':' : Char)) == ' ') = false := by decide
      rw [commaJoin, List.count_append]
      simp only [List.count_cons, h1, h2, h3, h4, if_false, Nat.add_zero, ih]
      simp [List.map_cons, List.sum_cons]

theorem natToChars_count_colon (n : Nat) : (natToChars n).count ':' = 0 := by
  rw [List.count_eq_zero]
  intro hmem
  have hd := List.all_eq_true.mp (natToChars_all_digits n) ':' hmem
  exact absurd hd (by decide)

theorem synthName_count_colon (cleaned : List Char) (hc : ':' ∉ cleaned)
    (i : Nat) : (synthName cleaned i).count ':' = 1 := by
  have h1 : (((':' : Char)) == ':') = true := by decide
  have h2 : ((('_' : Char)) == ':') = false := by decide
  have h3 : (((':' : Char)) == '_') = false := by decide
  rw [synthName]
  simp only [List.count_cons, List.count_append, h1, h2, h3, if_false, if_true,
    natToChars_count_colon, List.count_eq_zero.mpr hc, Nat.add_zero, Nat.zero_add]
  simp

theorem synthNames_count_colon (cleaned : List Char) (hc : ':' ∉ cleaned) :
    ∀ k, (synthNames cleaned k).count ':' = k := by
  intro k
  rw [synthNames, commaJoin_count_colon]
  induction k with
  | zero => rfl
  | succ k ih =>
    rw [List.range_succ, List.map_append, List.map_append, List.sum_append, ih]
    simp [synthName_count_colon cleaned hc]

/-! ### The claims -/

/-- C1: preparing the named statement
`select * from users where rowid in (:ids)` with `ids` bound to the list
`[1, 2, 100]` returns the rewritten statement
`select * from users where rowid in (:__ids_0, :__ids_1, :__ids_2)` and the
mapping `__ids_0 ↦ 1, __ids_1 ↦ 2, __ids_2 ↦ 100`; and in general, whenever
preparation succeeds, the rewritten mapping replaces every name bound to a
container of length K by the K synthetic keys `__<name>_<i>` holding the
encoded elements in place, keeping every other name with its encoded
value (`specNamedParams`). -/
theorem claim_C1_named_expansion :
    _prepare_named_params "select * from users where rowid in (:ids)".data
      [("ids".data, .vList [.vInt 1, .vInt 2, .vInt 100])] =
      .ok ("select * from users where rowid in (:__ids_0, :__ids_1, :__ids_2)".data,
        [("__ids_0".data, .vInt 1), ("__ids_1".data, .vInt 2),
         ("__ids_2".data, .vInt 100)])
    ∧ (∀ sql params out, _prepare_named_params sql params = .ok out →
        out.2 = specNamedParams params) := by
  constructor
  · rfl
  · intro sql params out h
    rw [_prepare_named_params] at h
    cases henc : encodeNamed params with
    | error err => rw [henc] at h; simp at h
    | ok q =>
      obtain ⟨rp, sizes⟩ := q
      rw [henc] at h
      injection h with h2
      cases h2
      exact encodeNamed_ok_params params rp sizes henc

theorem claim_C1_named_expansion_witness :
    ([("__a_0".data, PyVal.vInt 7)] : List (List Char × PyVal)) =
      specNamedParams [("a".data, PyVal.vList [PyVal.vInt 7])] :=
  claim_C1_named_expansion.2 "x in (:a)".data
    [("a".data, .vList [.vInt 7])]
    ("x in (:__a_0)".data, [("__a_0".data, .vInt 7)]) rfl

/-- C2 (amended): the statement side holds for both styles — a `?` at
position `pre ++ '?' :: post` whose running index maps to K is rewritten,
exactly at its original position, into the comma-joined run of K `?` (a
single `?` when unmapped), and that run has exactly K question marks; a
named exact-token occurrence (the leftmost occurrence of the name, with no
identifier-continuation character after it) is replaced exactly at its
original position by the replacement run, and the comma-joined run of K
synthetic names carries exactly K `:` placeholder markers.  On the
container side, the rewritten positional container is exactly the in-place
flattening — one slot per scalar, the K encoded elements per length-K
container — so its size is the sum of the per-parameter slot weights; the
rewritten named mapping has that size provided the written keys are
pairwise distinct.  Without that proviso the conclusion is false of the
code: a later parameter named like a synthetic `__<name>_<i>` key
overwrites the container's slot (see the counterexample). -/
theorem claim_C2_expansion_count :
    (∀ sizes idx pre post,
      (_propagate_positional_params sizes idx (pre ++ '?' :: post)).1 =
        (_propagate_positional_params sizes idx pre).1 ++
          qmarks ((lookupPos sizes (idx + pre.count '?')).getD 1) ++
          (_propagate_positional_params sizes (idx + pre.count '?' + 1) post).1)
    ∧ (∀ k, (qmarks k).count '?' = k)
    ∧ (∀ sql params out, _prepare_positional_params sql params = .ok out →
        out.2 = specPosParams params ∧
          out.2.length = (params.map posWeight).sum)
    ∧ (∀ p0 ptl rep pre post,
        (∀ i, i < pre.length →
          leadMatch (p0 :: ptl) ((pre ++ (p0 :: ptl) ++ post).drop i) = false) →
        identNext post = false →
        propNamedOne (p0 :: ptl) rep (pre ++ (p0 :: ptl) ++ post) =
          pre ++ rep ++ propNamedOne (p0 :: ptl) rep post)
    ∧ (∀ cleaned k, ':' ∉ cleaned → (synthNames cleaned k).count ':' = k)
    ∧ (∀ sql params out, _prepare_named_params sql params = .ok out →
        (specNamedKeys params).Nodup →
        out.2.length = (params.map namedWeight).sum) := by
  refine ⟨?_, qmarks_count, ?_, ?_, ?_, ?_⟩
  · intro sizes idx pre post
    have h1 := pp_append sizes pre ('?' :: post) idx
    have h2 : (_propagate_positional_params sizes idx pre).2 = idx + pre.count '?' :=
      pp_snd sizes pre idx
    rw [h1, h2, pp_qmark]
    simp [List.append_assoc]
  · intro sql params out h
    rw [_prepare_positional_params] at h
    cases henc : encodePositional 0 params with
    | error err => rw [henc] at h; simp at h
    | ok q =>
      obtain ⟨rp, sizes⟩ := q
      rw [henc] at h
      injection h with h2
      cases h2
      refine ⟨encodePositional_ok_params params 0 rp sizes henc, ?_⟩
      have hrp : rp = specPosParams params :=
        encodePositional_ok_params params 0 rp sizes henc
      rw [hrp]
      exact specPosParams_length params
  · exact fun p0 ptl rep pre post hpre hb =>
      propNamedOne_at p0 ptl rep post pre hpre hb
  · exact fun cleaned k hc => synthNames_count_colon cleaned hc k
  · intro sql params out h hnd
    rw [_prepare_named_params] at h
    cases henc : encodeNamed params with
    | error err => rw [henc] at h; simp at h
    | ok q =>
      obtain ⟨rp, sizes⟩ := q
      rw [henc] at h
      injection h with h2
      cases h2
      rw [encodeNamed_ok_params params rp sizes henc,
        specNamedParams_eq_flat params hnd, specNamedFlat_length]

theorem claim_C2_expansion_count_witness :
    (([("__b_0".data, PyVal.vInt 1), ("__b_1".data, PyVal.vInt 2)] :
      List (List Char × PyVal)).length =
      ([(("b".data : List Char), PyVal.vList [PyVal.vInt 1, PyVal.vInt 2])].map
        namedWeight).sum) ∧
    propNamedOne (':' :: "b".data) (synthNames "b".data 2)
        ("y in (".data ++ (':' :: "b".data) ++ [')']) =
      "y in (".data ++ synthNames "b".data 2 ++
        propNamedOne (':' :: "b".data) (synthNames "b".data 2) [')'] := by
  constructor
  · exact claim_C2_expansion_count.2.2.2.2.2 "y in (:b)".data
      [("b".data, .vList [.vInt 1, .vInt 2])]
      ("y in (:__b_0, :__b_1)".data,
        [("__b_0".data, .vInt 1), ("__b_1".data, .vInt 2)])
      rfl (by decide)
  · exact claim_C2_expansion_count.2.2.2.1 ':' "b".data (synthNames "b".data 2)
      "y in (".data [')'] (by decide) (by decide)

/-- C2 counterexample: with the container `a = [1, 2]` (K = 2) and a later
scalar parameter literally named `__a_0`, the scalar's dict write overwrites
the container's synthetic slot `__a_0` in place: the rewritten mapping has 2
entries, not the 3 slots the per-parameter weights (K = 2 for the container
plus 1 for the scalar) prescribe, and the container's element `1` is no
longer bound anywhere, while the rewritten statement still carries both
synthetic placeholders. -/
theorem claim_C2_counterexample :
    _prepare_named_params "x in (:a)".data
      [("a".data, .vList [.vInt 1, .vInt 2]), ("__a_0".data, .vInt 5)] =
      .ok ("x in (:__a_0, :__a_1)".data,
        [("__a_0".data, .vInt 5), ("__a_1".data, .vInt 2)]) ∧
    ([("__a_0".data, PyVal.vInt 5), ("__a_1".data, PyVal.vInt 2)] :
        List (List Char × PyVal)).length ≠
      ([(("a".data : List Char), PyVal.vList [PyVal.vInt 1, PyVal.vInt 2]),
        (("__a_0".data : List Char), PyVal.vInt 5)].map namedWeight).sum :=
  ⟨rfl, by decide⟩

/-- C3 (amended): the splitter's partition of the statement is lossless;
every opaque segment it produces is a single-quoted or double-quoted span
whose closing quote arrives before any newline, or a line comment terminated
by a newline; and in both rewrites every opaque segment appears verbatim in
the output, a `?` inside an opaque segment not advancing the positional
placeholder index (the segments after it are processed with the index
reached before it).  The claim as stated — protection of every quoted
literal and of comments up to end of input — is refuted by
`claim_C3_counterexample`: a quoted span containing a newline (or an
unterminated comment) is not matched by the splitter's pattern and is
rewritten as code. -/
theorem claim_C3_opaque_spans :
    (∀ sql, joinSegs (splitSql sql) = sql)
    ∧ (∀ sql cs, Seg.lit cs ∈ splitSql sql → litOkB cs = true)
    ∧ (∀ sizes idx segs1 cs segs2,
        (adjustSegsPos sizes idx (segs1 ++ Seg.lit cs :: segs2)).1 =
          (adjustSegsPos sizes idx segs1).1 ++ cs ++
            (adjustSegsPos sizes ((adjustSegsPos sizes idx segs1).2) segs2).1)
    ∧ (∀ f segs1 cs segs2,
        adjustSegs f (segs1 ++ Seg.lit cs :: segs2) =
          adjustSegs f segs1 ++ cs ++ adjustSegs f segs2) :=
  ⟨joinSegs_splitSql, splitSql_lit_ok,
   fun sizes idx segs1 cs segs2 => (adjustSegsPos_lit sizes segs1 idx cs segs2).1,
   adjustSegs_lit⟩

theorem claim_C3_opaque_spans_witness :
    joinSegs (splitSql "select '?' -- c\n?".data) = "select '?' -- c\n?".data ∧
    litOkB "'?'".data = true :=
  ⟨claim_C3_opaque_spans.1 "select '?' -- c\n?".data,
   claim_C3_opaque_spans.2.1 "select '?' -- c\n?".data "'?'".data (by decide)⟩

/-- C3 is false as stated: in the statement `'a\n?'` the `?` lies inside a
single-quoted string literal (opened and closed by matching quotes), yet the
rewrite with the first parameter bound to a two-element container rewrites
that `?` into two placeholders, because the literal contains a newline and
the splitter's lazy single-line pattern does not match it. -/
theorem claim_C3_counterexample :
    _prepare_positional_params "'a\n?'".data [.vList [.vInt 1, .vInt 2]] =
      .ok ("'a\n?, ?'".data, [.vInt 1, .vInt 2]) ∧
    "'a\n?, ?'".data ≠ "'a\n?'".data :=
  ⟨rfl, by decide⟩

/-- C4: in a statement containing both `:id` (bound to a three-element
container) and `:identity` (a scalar), preparation expands every exact-token
occurrence of `:id` and leaves `:identity` unchanged; and in general a text
in which every occurrence of a name is immediately followed by an
identifier-continuation character (exact-token count zero) is left entirely
unchanged by that name's replacement pass. -/
theorem claim_C4_name_boundary :
    _prepare_named_params
      "select * from users where id in (:id) and name = :identity".data
      [("id".data, .vList [.vInt 1, .vInt 2, .vInt 3]),
       ("identity".data, .vStr "x".data)] =
      .ok ("select * from users where id in (:__id_0, :__id_1, :__id_2) and name = :identity".data,
        [("__id_0".data, .vInt 1), ("__id_1".data, .vInt 2), ("__id_2".data, .vInt 3),
         ("identity".data, .vStr "x".data)])
    ∧ (∀ pname rep code, countTok pname code = 0 →
        propNamedOne pname rep code = code) := by
  constructor
  · rfl
  · intro pname rep code h
    exact propNamedOneAux_of_countTokAux_zero pname rep code.length code h

theorem claim_C4_name_boundary_witness :
    propNamedOne ":id".data (synthNames "id".data 3) "select :identity".data =
      "select :identity".data :=
  claim_C4_name_boundary.2 ":id".data (synthNames "id".data 3)
    "select :identity".data (by decide)

/-- C5: the scalar encoder maps a boolean to the integer 0/1, a calendar
date to its ISO 8601 date text, a date-and-time to ISO 8601 text with a
space separator, a fixed-point decimal to its canonical text, and passes
native int, float, str, bytes and None through unchanged; encoding the
positional parameters `(True, Decimal("1.2345"))` of
`select ? as s1, ? as s2` yields `(1, "1.2345")` with the statement
unchanged. -/
theorem claim_C5_encoder_table :
    (∀ b, encode_val (.vBool b) = some (.vInt (if b then 1 else 0)))
    ∧ encode_val (.vDate ⟨2024, 3, 7⟩) = some (.vStr "2024-03-07".data)
    ∧ encode_val (.vDatetime ⟨2024, 3, 7, 15, 4, 5, 0⟩) =
        some (.vStr "2024-03-07 15:04:05".data)
    ∧ (∀ d, encode_val (.vDate d) = some (.vStr (dateIso d)))
    ∧ (∀ t, encode_val (.vDatetime t) = some (.vStr (dtIso t)))
    ∧ (∀ x, encode_val (.vDecimal x) = some (.vStr (decimalStr x)))
    ∧ (∀ n, encode_val (.vInt n) = some (.vInt n))
    ∧ (∀ q, encode_val (.vFloat q) = some (.vFloat q))
    ∧ (∀ s, encode_val (.vStr s) = some (.vStr s))
    ∧ (∀ bs, encode_val (.vBytes bs) = some (.vBytes bs))
    ∧ encode_val .vNone = some .vNone
    ∧ _prepare_positional_params "select ? as s1, ? as s2".data
        [.vBool true, .vDecimal ⟨false, 12345, -4⟩] =
      .ok ("select ? as s1, ? as s2".data, [.vInt 1, .vStr "1.2345".data]) := by
  refine ⟨fun b => rfl, rfl, rfl, fun d => rfl, fun t => rfl, fun x => rfl,
    fun n => rfl, fun q => rfl, fun s => rfl, fun bs => rfl, rfl, rfl⟩

/-- C6: for each supported declared type — boolean, calendar date,
date-and-time, fixed-point decimal — decoding the encoded value with the
decoder built for that type gives the value back, for every value the
Python type can hold (field bounds are the `datetime` type invariants), and
None decodes to None under every declared type. -/
theorem claim_C6_round_trip :
    (∀ b, (encode_val (.vBool b)).bind (make_scalar_decoder .tBool) =
      some (.vBool b))
    ∧ (∀ d : PyDate, 1 ≤ d.year → d.year ≤ 9999 → 1 ≤ d.month → d.month ≤ 12 →
        1 ≤ d.day → d.day ≤ 31 →
        (encode_val (.vDate d)).bind (make_scalar_decoder .tDate) =
          some (.vDate d))
    ∧ (∀ t : PyDatetime, 1 ≤ t.year → t.year ≤ 9999 → 1 ≤ t.month →
        t.month ≤ 12 → 1 ≤ t.day → t.day ≤ 31 → t.hour ≤ 23 → t.minute ≤ 59 →
        t.second ≤ 59 → t.microsecond ≤ 999999 →
        (encode_val (.vDatetime t)).bind (make_scalar_decoder .tDatetime) =
          some (.vDatetime t))
    ∧ (∀ x : PyDecimal,
        (encode_val (.vDecimal x)).bind (make_scalar_decoder .tDecimal) =
          some (.vDecimal x))
    ∧ (∀ T, (encode_val .vNone).bind (make_scalar_decoder T) = some .vNone) := by
  refine ⟨?_, ?_, ?_, ?_, ?_⟩
  · intro b; cases b <;> rfl
  · intro d h1 h2 h3 h4 h5 h6
    have hred : (encode_val (.vDate d)).bind (make_scalar_decoder .tDate) =
        (dateFromIso (dateIso d)).map .vDate := rfl
    rw [hred, dateFromIso_dateIso d h1 h2 h3 h4 h5 h6]
    rfl
  · intro t h1 h2 h3 h4 h5 h6 h7 h8 h9 h10
    have hred : (encode_val (.vDatetime t)).bind (make_scalar_decoder .tDatetime) =
        (dtFromIso (dtIso t)).map .vDatetime := rfl
    rw [hred, dtFromIso_dtIso t h1 h2 h3 h4 h5 h6 h7 h8 h9 h10]
    rfl
  · intro x
    have hred : (encode_val (.vDecimal x)).bind (make_scalar_decoder .tDecimal) =
        (decimalParse (decimalStr x)).map .vDecimal := rfl
    rw [hred, decimalParse_decimalStr x]
    rfl
  · intro T; cases T <;> rfl

theorem claim_C6_round_trip_witness :
    (encode_val (.vDate ⟨2024, 3, 7⟩)).bind (make_scalar_decoder .tDate) =
      some (.vDate ⟨2024, 3, 7⟩) ∧
    (encode_val (.vDatetime ⟨2024, 3, 7, 15, 4, 5, 120⟩)).bind
      (make_scalar_decoder .tDatetime) =
      some (.vDatetime ⟨2024, 3, 7, 15, 4, 5, 120⟩) :=
  ⟨claim_C6_round_trip.2.1 ⟨2024, 3, 7⟩ (by decide) (by decide) (by decide)
    (by decide) (by decide) (by decide),
   claim_C6_round_trip.2.2.1 ⟨2024, 3, 7, 15, 4, 5, 120⟩ (by decide) (by decide)
    (by decide) (by decide) (by decide) (by decide) (by decide) (by decide)
    (by decide) (by decide)⟩

/-- C7: a Prepared call result built from both positional and keyword
parameters raises the mutual-exclusivity value error at construction, and
the whole statement pipeline reports exactly that error for any argument
values whatsoever — including unencodable ones — so the failure precedes any
parameter encoding or driver work. -/
theorem claim_C7_mutual_exclusivity :
    ∀ (a0 : PyVal) (arest : List PyVal) (k0 : List Char × PyVal)
      (krest : List (List Char × PyVal)) (funcName : String)
      (argsTuple : List PyVal) (argsDict : List (List Char × PyVal))
      (default_sql : Option (List Char)),
      _bake_params (a0 :: arest) (k0 :: krest) =
        .error (.valueError
          "Only positional OR keyword arguments are allowed here, not both")
      ∧ sqlite_sql_n_params funcName argsTuple argsDict
          (outcomeOfCall (params_call (a0 :: arest) (k0 :: krest))) default_sql =
        .error (.valueError
          "Only positional OR keyword arguments are allowed here, not both") := by
  intro a0 arest k0 krest funcName argsTuple argsDict default_sql
  exact ⟨rfl, rfl⟩

/-- C8: when the query function raises the cancel signal, statement
resolution returns the skip outcome, the driver's execute is never invoked
(the call log is empty), no error reaches the caller, and the fetch-all
adapter returns the empty list — whatever the driver would have
returned. -/
theorem claim_C8_cancel_short_circuit :
    ∀ {R A : Type} (funcName : String) (argsTuple : List PyVal)
      (argsDict : List (List Char × PyVal)) (default_sql : Option (List Char))
      (execute : List Char → ParamsContainer → List R) (decodeRow : R → A),
      req_sql_n_params funcName argsTuple argsDict .cancel default_sql = .ok none
      ∧ sqlite_sql_n_params funcName argsTuple argsDict .cancel default_sql =
          .ok none
      ∧ sql_fetch_all_run funcName argsTuple argsDict .cancel default_sql
          execute decodeRow = (.ok [], []) := by
  intro R A funcName argsTuple argsDict default_sql execute decodeRow
  exact ⟨rfl, rfl, rfl⟩

/-- C9: the placeholder rewrites are total functions of the statement text
and the size tables (they are plain `def`s, so they terminate and raise
nothing); a name that never occurs in the text leaves it unchanged; `?`
placeholders whose indices are beyond the size table are kept as single
`?`; and with no expansion sizes at all, both full rewrites — including on
statements with an unterminated quote or a comment without a trailing
newline — return the statement unchanged. -/
theorem claim_C9_totality :
    (∀ pname rep code, occursIn pname code = false →
      propNamedOne pname rep code = code)
    ∧ (∀ sizes idx code,
        (∀ j, j < code.count '?' → lookupPos sizes (idx + j) = none) →
        _propagate_positional_params sizes idx code = (code, idx + code.count '?'))
    ∧ (∀ sql, adjustPositional [] sql = sql)
    ∧ (∀ sql, adjustNamed [] sql = sql) := by
  refine ⟨?_, ?_, ?_, ?_⟩
  · intro pname rep code h
    exact propNamedOneAux_of_not_occurs pname rep code.length code h
  · intro sizes idx code h
    exact pp_no_lookup sizes code idx h
  · intro sql
    rw [adjustPositional, adjustSegsPos_empty_sizes, joinSegs_splitSql]
  · intro sql
    rw [adjustNamed, adjustSegs_named_empty, joinSegs_splitSql]

theorem claim_C9_totality_witness :
    propNamedOne ":x".data (synthNames "x".data 2) "select ?".data =
      "select ?".data ∧
    _propagate_positional_params [(5, 2)] 0 "a?b".data =
      ("a?b".data, 0 + "a?b".data.count '?') ∧
    adjustPositional [] "select 'unterminated -- tail".data =
      "select 'unterminated -- tail".data :=
  ⟨claim_C9_totality.1 ":x".data (synthNames "x".data 2) "select ?".data
    (by decide),
   claim_C9_totality.2.1 [(5, 2)] 0 "a?b".data (by decide),
   claim_C9_totality.2.2.1 "select 'unterminated -- tail".data⟩

/-- C10: the "statement absent after fallback" configuration error is
raised if and only if the resolved statement is None — in both resolver
modules, whenever the query function did not itself raise; an empty-string
statement, whether the decorator default or returned by the query function
in a Prepared result, is accepted and passed through. -/
theorem claim_C10_empty_statement :
    ∀ (funcName : String) (argsTuple : List PyVal)
      (argsDict : List (List Char × PyVal)) (outcome : FuncOutcome)
      (default_sql : Option (List Char)),
      (∀ err, outcome ≠ .raised err) →
      ((req_sql_n_params funcName argsTuple argsDict outcome default_sql =
          .error (.runtimeError (noSqlMsg funcName))) ↔
        resolvedSqlAbsent outcome default_sql = true)
      ∧ ((req_sql_n_params_args_only funcName argsTuple outcome default_sql =
          .error (.runtimeError (noSqlMsg funcName))) ↔
        resolvedSqlAbsentArgsOnly outcome default_sql = true)
      ∧ (∀ p, req_sql_n_params funcName argsTuple argsDict
            (.returns (some (.prepared (some []) p))) default_sql =
          .ok (some ([], p.getD (.positional []))))
      ∧ req_sql_n_params funcName argsTuple argsDict (.returns none) (some []) =
          .ok (some ([], .positional [])) := by
  intro funcName argsTuple argsDict outcome default_sql hnr
  refine ⟨?_, ?_, fun p => rfl, rfl⟩
  · cases outcome with
    | cancel => simp [req_sql_n_params, resolvedSqlAbsent]
    | raised err => exact absurd rfl (hnr err)
    | returns r =>
      cases r with
      | none =>
        cases default_sql <;> simp [req_sql_n_params, resolvedSqlAbsent]
      | some fr =>
        cases fr with
        | prepared s p =>
          cases s with
          | none =>
            cases default_sql <;> simp [req_sql_n_params, resolvedSqlAbsent]
          | some s0 => simp [req_sql_n_params, resolvedSqlAbsent]
        | autoPositional =>
          cases default_sql <;> simp [req_sql_n_params, resolvedSqlAbsent]
        | autoNamed =>
          cases default_sql <;> simp [req_sql_n_params, resolvedSqlAbsent]
        | other tname => simp [req_sql_n_params, resolvedSqlAbsent]
  · cases outcome with
    | cancel => simp [req_sql_n_params_args_only, resolvedSqlAbsentArgsOnly]
    | raised err => exact absurd rfl (hnr err)
    | returns r =>
      cases r with
      | none =>
        cases default_sql <;>
          simp [req_sql_n_params_args_only, resolvedSqlAbsentArgsOnly]
      | some fr =>
        cases fr with
        | prepared s p =>
          cases s with
          | none =>
            cases default_sql <;>
              simp [req_sql_n_params_args_only, resolvedSqlAbsentArgsOnly]
          | some s0 =>
            simp [req_sql_n_params_args_only, resolvedSqlAbsentArgsOnly]
        | autoPositional =>
          cases default_sql <;>
            simp [req_sql_n_params_args_only, resolvedSqlAbsentArgsOnly]
        | autoNamed =>
          simp [req_sql_n_params_args_only, resolvedSqlAbsentArgsOnly]
        | other tname =>
          simp [req_sql_n_params_args_only, resolvedSqlAbsentArgsOnly]

theorem claim_C10_empty_statement_witness :
    (req_sql_n_params "f" [] [] (.returns none) none =
      .error (.runtimeError (noSqlMsg "f"))) ∧
    req_sql_n_params "f" [] [] (.returns none) (some []) =
      .ok (some ([], .positional [])) := by
  have h := claim_C10_empty_statement "f" [] [] (.returns none) none
    (fun err hcontra => FuncOutcome.noConfusion hcontra)
  exact ⟨h.1.mpr rfl, h.2.2.2⟩

end Noorm
